import Mathlib

/-!
Verification of the Ballistic-Intel pipeline against its specification.

The Python sources are shallowly embedded: strings are `List Char` (the
embedding is faithful on the ASCII fragment, which every concrete input
used below lies in), Python floats are modelled as rationals `ℚ`, machine
integers as `Nat`, raised exceptions as explicit result values, and the
wall clock as explicit time parameters.  Each definition names the source
function it embeds.
-/

namespace BallisticIntel

/-! ## Character helpers (ASCII fragment of Python `str` methods)

`str.lower` is modelled by `Char.toLower` (identical on ASCII).
`re.sub(r'[^\w\s]', '', s)` keeps word characters and whitespace; on the
ASCII fragment `\w` is alphanumerics plus underscore and `\s` is
whitespace. -/

def isWordChar (c : Char) : Bool := c.isAlphanum || c == '_'

def keepChar (c : Char) : Bool := isWordChar c || c.isWhitespace

/-- `unicodedata.normalize('NFC', s)` (name_normalizer.py line 47).
NFC composition is the identity on ASCII strings; the embedding models
that fragment, so the step is the identity. -/
def nfc (s : List Char) : List Char := s

/-- `name.replace('&', ' and ').replace('/', ' ')` (name_normalizer.py
lines 53-54), fused into one left-to-right pass: neither replacement can
create a new `&` or `/`, so the fusion agrees with the sequential
replaces. -/
def replaceAmpSlash : List Char → List Char
  | [] => []
  | c :: cs =>
    if c = '&' then ' ' :: 'a' :: 'n' :: 'd' :: ' ' :: replaceAmpSlash cs
    else if c = '/' then ' ' :: replaceAmpSlash cs
    else c :: replaceAmpSlash cs

/-- Python `str.split()` with no separator splits on whitespace runs and
drops empty fields; `cur` accumulates the characters of the current
word in reverse. -/
def wordsAcc : List Char → List Char → List (List Char)
  | cur, [] => if cur.isEmpty then [] else [cur.reverse]
  | cur, c :: cs =>
    if c.isWhitespace then
      if cur.isEmpty then wordsAcc [] cs else cur.reverse :: wordsAcc [] cs
    else wordsAcc (c :: cur) cs

/-- Python `str.split()` with no separator. -/
def words (s : List Char) : List (List Char) := wordsAcc [] s

/-- Python `' '.join(tokens)`. -/
def unwords : List (List Char) → List Char
  | [] => []
  | [w] => w
  | w :: ws => w ++ ' ' :: unwords ws

/-- Python `str.strip()`: drop leading and trailing whitespace. -/
def pystrip (s : List Char) : List Char :=
  ((s.dropWhile Char.isWhitespace).reverse.dropWhile Char.isWhitespace).reverse

/-- The token-deduplication loop of `NameNormalizer.normalize`
(name_normalizer.py lines 74-79): keep the first occurrence of each
token, preserving order.  `seen` accumulates the tokens already kept. -/
def dedupFirstAux (seen : List (List Char)) : List (List Char) → List (List Char)
  | [] => []
  | t :: ts => if t ∈ seen then dedupFirstAux seen ts
               else t :: dedupFirstAux (t :: seen) ts

def dedupFirst (ts : List (List Char)) : List (List Char) := dedupFirstAux [] ts

/-! ## P4Config (p4_config.py) — defaults, no environment overrides -/

/-- `P4Config.LEGAL_SUFFIXES` (p4_config.py lines 36-42), already
lowercase so `set(s.lower() for s in ...)` is the same set. -/
def LEGAL_SUFFIXES : List (List Char) :=
  ["inc", "incorporated", "corp", "corporation", "ltd", "limited",
   "llc", "l.l.c.", "co", "company", "plc", "p.l.c.",
   "s.a.", "sa", "ag", "gmbh", "bv", "b.v.", "n.v.", "nv",
   "pte", "pty", "oy", "kk", "k.k.", "kft", "srl", "s.r.l.",
   "ab", "as", "a/s", "spa", "s.p.a.", "kg", "gmbh & co. kg"].map String.toList

/-- `P4Config.CORPORATE_STOPWORDS` (p4_config.py lines 45-49). -/
def CORPORATE_STOPWORDS : List (List Char) :=
  ["technologies", "technology", "systems", "solutions",
   "holdings", "group", "international", "global",
   "services", "software", "labs", "laboratory"].map String.toList

/-- `P4Config.ACRONYM_EXPANSIONS` (p4_config.py lines 52-61), in dict
insertion order. -/
def ACRONYM_EXPANSIONS : List (List Char × List Char) :=
  [("pan", "palo alto networks"), ("vmw", "vmware"), ("csco", "cisco"),
   ("crwd", "crowdstrike"), ("ftnt", "fortinet"),
   ("panw", "palo alto networks"), ("zs", "zscaler"),
   ("okta", "okta")].map (fun p => (p.1.toList, p.2.toList))

/-! ## NameNormalizer (name_normalizer.py) -/

/-- First step of `NameNormalizer._remove_legal_suffixes`
(name_normalizer.py lines 99-101): drop the last token when it is a
legal suffix. -/
def dropLastLegalSuffix (tokens : List (List Char)) : List (List Char) :=
  match tokens.getLast? with
  | some t => if t ∈ LEGAL_SUFFIXES then tokens.dropLast else tokens
  | none => tokens

/-- Second step of `NameNormalizer._remove_legal_suffixes`
(name_normalizer.py lines 104-107): drop the last two tokens when,
joined by a space, they form a legal suffix. -/
def dropLastLegalPair (tokens : List (List Char)) : List (List Char) :=
  match tokens.getLast?, tokens.dropLast.getLast? with
  | some l1, some l2 =>
      if (l2 ++ ' ' :: l1) ∈ LEGAL_SUFFIXES then tokens.dropLast.dropLast
      else tokens
  | _, _ => tokens

/-- `NameNormalizer._remove_legal_suffixes` (name_normalizer.py lines
86-109). -/
def removeLegalSuffixes (tokens : List (List Char)) : List (List Char) :=
  dropLastLegalPair (dropLastLegalSuffix tokens)

/-- The trailing corporate-stopword step of `NameNormalizer.normalize`
(name_normalizer.py lines 70-71): drop the last token when more than two
tokens are present and the last is a corporate stopword. -/
def dropTrailingStopword (tokens : List (List Char)) : List (List Char) :=
  match tokens.getLast? with
  | some t =>
      if 2 < tokens.length ∧ t ∈ CORPORATE_STOPWORDS then tokens.dropLast
      else tokens
  | none => tokens

/-- The suffix- and stopword-trimming stage of `NameNormalizer.normalize`
(name_normalizer.py lines 66-71). -/
def trimTokens (tokens : List (List Char)) : List (List Char) :=
  dropTrailingStopword (removeLegalSuffixes tokens)

/-- The character-level stages of `NameNormalizer.normalize`
(name_normalizer.py lines 46-57): NFC, lowercasing, ampersand/slash
replacement, punctuation stripping. -/
def cleanChars (name : List Char) : List Char :=
  (replaceAmpSlash ((nfc name).map Char.toLower)).filter keepChar

/-- `NameNormalizer.normalize` (name_normalizer.py lines 33-84).
The Python `' '.join(name.split())` collapse followed by `split()`
produces exactly `words` of the cleaned character list, so the two are
fused here; the final `.strip()` is `pystrip`. -/
def normalize (name : List Char) : List Char :=
  if name = [] then []
  else
    let tokens3 := dedupFirst (trimTokens (words (cleanChars name)))
    pystrip (unwords tokens3)

/-- `NameNormalizer.extract_tokens` (name_normalizer.py lines 111-122):
the Python `Set[str]` of tokens is represented as the duplicate-free
list of tokens in first-occurrence order.  CPython iterates a `set` in
an unspecified (hash-seed dependent) order; every theorem below that
depends on `extract_tokens` is order-insensitive (set cardinalities and
membership), except where a doc comment notes the fixed order. -/
def extract_tokens (name : List Char) : List (List Char) :=
  dedupFirst (words (normalize name))

/-! ## Similarity (similarity.py)

Python floats are modelled as rationals; the default thresholds and
weights of `P4Config` (no environment overrides) are the literals below.
The external library calls `Levenshtein.ratio` and
`jellyfish.jaro_winkler_similarity` are reached only when both
normalized strings are non-empty; they are passed in as parameters
`ratio` and `jw`, so every theorem below holds for any behaviour of the
two libraries. -/

def HARD_MATCH_THRESHOLD : ℚ := 88/100

def SOFT_MATCH_THRESHOLD : ℚ := 70/100

def WEIGHT_TOKEN_JACCARD : ℚ := 35/100

def WEIGHT_EDIT_DISTANCE : ℚ := 25/100

def WEIGHT_JARO_WINKLER : ℚ := 15/100

def WEIGHT_ACRONYM : ℚ := 25/100

/-- `SimilarityCalculator.token_jaccard` (similarity.py lines 27-46).
The Python token sets are duplicate-free lists; intersection and union
are computed by filtering, which matches set cardinality because the
inputs produced by `extract_tokens` have no duplicates. -/
def token_jaccard (tokens1 tokens2 : List (List Char)) : ℚ :=
  if tokens1 = [] ∧ tokens2 = [] then 1
  else if tokens1 = [] ∨ tokens2 = [] then 0
  else
    let inter := tokens1.filter (fun t => t ∈ tokens2)
    let uni := tokens1 ++ tokens2.filter (fun t => t ∉ tokens1)
    (inter.length : ℚ) / (uni.length : ℚ)

/-- `SimilarityCalculator.edit_distance_ratio` (similarity.py lines
48-64); `ratio` stands for the library call `Levenshtein.ratio`. -/
def edit_distance_ratio (ratio : List Char → List Char → ℚ)
    (str1 str2 : List Char) : ℚ :=
  if str1 = [] ∧ str2 = [] then 1
  else if str1 = [] ∨ str2 = [] then 0
  else ratio str1 str2

/-- `SimilarityCalculator.jaro_winkler` (similarity.py lines 66-82);
`jw` stands for the library call `jellyfish.jaro_winkler_similarity`. -/
def jaro_winkler (jw : List Char → List Char → ℚ)
    (str1 str2 : List Char) : ℚ :=
  if str1 = [] ∧ str2 = [] then 1
  else if str1 = [] ∨ str2 = [] then 0
  else jw str1 str2

/-- Association-list lookup, used for Python `dict` access keyed by
strings. -/
def alookup {α β : Type} [DecidableEq α] : List (α × β) → α → Option β
  | [], _ => none
  | (k, v) :: rest, x => if x = k then some v else alookup rest x

/-- `NameNormalizer.matches_acronym` (name_normalizer.py lines 161-182).
The Python code joins `token[0]` over a `Set[str]`, whose iteration
order is hash-seed dependent; here the first-occurrence order of
`extract_tokens` is used.  No theorem below depends on this order: the
match-decision theorem treats the acronym component as whatever value
this function computes, and the composite-score theorems only use
inputs on which the function returns before reaching the initials. -/
def matches_acronym (full_name acronym : List Char) : Bool :=
  let full_tokens := extract_tokens full_name
  let acronym_normalized := normalize acronym
  if full_tokens = [] ∨ acronym_normalized = [] then false
  else
    let initials := (full_tokens.map (fun t => t.take 1)).flatten
    initials = acronym_normalized ∨
      initials.filter (fun c => c ≠ 'w') = acronym_normalized

/-- `NameNormalizer.expand_acronym` (name_normalizer.py lines 148-159):
`ACRONYM_EXPANSIONS.get(normalized, normalized)`. -/
def expand_acronym (acronym : List Char) : List Char :=
  let normalized := normalize acronym
  match alookup ACRONYM_EXPANSIONS normalized with
  | some e => e
  | none => normalized

/-- `SimilarityCalculator.acronym_score` (similarity.py lines 84-117)
with the default `P4Config.USE_ACRONYM_EXPANSION = true`. -/
def acronym_score (name1 name2 : List Char) : ℚ :=
  if matches_acronym name1 name2 then 1
  else if matches_acronym name2 name1 then 1
  else
    let expanded1 := expand_acronym name1
    let expanded2 := expand_acronym name2
    if expanded1 ≠ name1 ∨ expanded2 ≠ name2 then
      if expanded1 = expanded2 then 1
      else if normalize expanded1 = normalize name2 then 1
      else if normalize expanded2 = normalize name1 then 1
      else 0
    else 0

/-- The component-score dictionary built by
`SimilarityCalculator.composite_score` (similarity.py lines 156-162). -/
structure ComponentScores where
  jaccard : ℚ
  edit : ℚ
  jaro : ℚ
  acronym : ℚ
  composite : ℚ
deriving DecidableEq

/-- `SimilarityCalculator.composite_score` (similarity.py lines
119-164). -/
def composite_score (ratio jw : List Char → List Char → ℚ)
    (name1 name2 : List Char) : ℚ × ComponentScores :=
  let norm1 := normalize name1
  let norm2 := normalize name2
  let tokens1 := extract_tokens name1
  let tokens2 := extract_tokens name2
  let jaccard := token_jaccard tokens1 tokens2
  let edit := edit_distance_ratio ratio norm1 norm2
  let jaro := jaro_winkler jw norm1 norm2
  let acronym := acronym_score name1 name2
  let composite := WEIGHT_TOKEN_JACCARD * jaccard + WEIGHT_EDIT_DISTANCE * edit
    + WEIGHT_JARO_WINKLER * jaro + WEIGHT_ACRONYM * acronym
  (composite, ⟨jaccard, edit, jaro, acronym, composite⟩)

/-- `SimilarityCalculator.is_match` (similarity.py lines 166-209):
returns `(is_match, score, rules_applied)`. -/
def is_match (ratio jw : List Char → List Char → ℚ)
    (name1 name2 : List Char) : Bool × ℚ × List String :=
  let sc := composite_score ratio jw name1 name2
  let score := sc.1
  let components := sc.2
  if score ≥ HARD_MATCH_THRESHOLD then (true, score, ["hard_match"])
  else if score ≥ SOFT_MATCH_THRESHOLD then
    if components.acronym = 1 then (true, score, ["soft_match_with_acronym"])
    else if components.jaccard ≥ 8/10 then
      (true, score, ["soft_match_with_high_token_overlap"])
    else if components.edit ≥ 9/10 then
      (true, score, ["soft_match_with_high_edit_similarity"])
    else (false, score, ["soft_match_no_corroboration"])
  else (false, score, ["no_match"])

/-! ## Canonical selection (clusterer.py lines 120-161) -/

/-- Python `max(xs, key=key)` over a non-empty list `b :: xs`: keeps the
earliest element whose key is maximal (a later element replaces the
current best only when strictly greater). -/
def pyMaxByKey {α : Type} (key : α → Nat) : α → List α → α
  | best, [] => best
  | best, x :: xs => if key x > key best then pyMaxByKey key x xs
                     else pyMaxByKey key best xs

/-- `Clusterer.select_canonical` (clusterer.py lines 120-154) under the
default `P4Config.CANONICAL_STRATEGY = 'longest'`: the strategy branch
`max(normalized_lengths, key=lambda x: x[1])[0]`.  The empty cluster
returns the empty string (line 131). -/
def select_canonical (names : List (List Char)) : List Char :=
  match names with
  | [] => []
  | [n] => n
  | n :: rest =>
    let normalized_lengths := (n :: rest).map (fun m => (m, (normalize m).length))
    match normalized_lengths with
    | [] => []
    | p :: ps => (pyMaxByKey (fun q => q.2) p ps).1

/-! ## SHA-256 (`hashlib.sha256`), FIPS 180-4, over byte lists -/

/-- Truncate to a 32-bit word. -/
def w32 (n : Nat) : Nat := n % 4294967296

/-- Right rotation of a 32-bit word (input assumed `< 2 ^ 32`). -/
def rotr32 (n k : Nat) : Nat := w32 ((n >>> k) ||| (n <<< (32 - k)))

/-- The 64 round constants of FIPS 180-4 §4.2.2, written in decimal. -/
def sha256K : List Nat :=
  [1116352408, 1899447441, 3049323471, 3921009573, 961987163,
   1508970993, 2453635748, 2870763221, 3624381080, 310598401,
   607225278, 1426881987, 1925078388, 2162078206, 2614888103,
   3248222580, 3835390401, 4022224774, 264347078, 604807628,
   770255983, 1249150122, 1555081692, 1996064986, 2554220882,
   2821834349, 2952996808, 3210313671, 3336571891, 3584528711,
   113926993, 338241895, 666307205, 773529912, 1294757372,
   1396182291, 1695183700, 1986661051, 2177026350, 2456956037,
   2730485921, 2820302411, 3259730800, 3345764771, 3516065817,
   3600352804, 4094571909, 275423344, 430227734, 506948616,
   659060556, 883997877, 958139571, 1322822218, 1537002063,
   1747873779, 1955562222, 2024104815, 2227730452, 2361852424,
   2428436474, 2756734187, 3204031479, 3329325298]

/-- The 8 initial hash values of FIPS 180-4 §5.3.3, written in
decimal. -/
def sha256H0 : List Nat :=
  [1779033703, 3144134277, 1013904242, 2773480762,
   1359893119, 2600822924, 528734635, 1541459225]

/-- `k` bytes of `n`, big-endian. -/
def beBytes : Nat → Nat → List Nat
  | 0, _ => []
  | k + 1, n => beBytes k (n / 256) ++ [n % 256]

/-- SHA-256 padding: append `0x80`, zero bytes to 56 mod 64, then the
bit length as 8 big-endian bytes. -/
def sha256Pad (msg : List Nat) : List Nat :=
  let padZeros := (119 - msg.length % 64) % 64
  msg ++ 0x80 :: List.replicate padZeros 0 ++ beBytes 8 (8 * msg.length)

/-- Group bytes into big-endian 32-bit words. -/
def bytesToWords : List Nat → List Nat
  | b0 :: b1 :: b2 :: b3 :: rest =>
    (((b0 * 256 + b1) * 256 + b2) * 256 + b3) :: bytesToWords rest
  | _ => []

def smallSigma0 (x : Nat) : Nat := (rotr32 x 7) ^^^ (rotr32 x 18) ^^^ (x >>> 3)

def smallSigma1 (x : Nat) : Nat := (rotr32 x 17) ^^^ (rotr32 x 19) ^^^ (x >>> 10)

def bigSigma0 (x : Nat) : Nat := (rotr32 x 2) ^^^ (rotr32 x 13) ^^^ (rotr32 x 22)

def bigSigma1 (x : Nat) : Nat := (rotr32 x 6) ^^^ (rotr32 x 11) ^^^ (rotr32 x 25)

def shaCh (x y z : Nat) : Nat := (x &&& y) ^^^ ((x ^^^ 0xffffffff) &&& z)

def shaMaj (x y z : Nat) : Nat := (x &&& y) ^^^ (x &&& z) ^^^ (y &&& z)

/-- Extend the 16-word message schedule by one word. -/
def scheduleStep (w : List Nat) : List Nat :=
  let n := w.length
  w ++ [w32 (smallSigma1 (w.getD (n - 2) 0) + w.getD (n - 7) 0
    + smallSigma0 (w.getD (n - 15) 0) + w.getD (n - 16) 0)]

def schedule (w : List Nat) : Nat → List Nat
  | 0 => w
  | k + 1 => schedule (scheduleStep w) k

/-- One SHA-256 compression round on state `[a,b,c,d,e,f,g,h]` with the
round constant already added to the schedule word. -/
def sha256Round (st : List Nat) (kw : Nat) : List Nat :=
  match st with
  | [a, b, c, d, e, f, g, h] =>
    let t1 := w32 (h + bigSigma1 e + shaCh e f g + kw)
    let t2 := w32 (bigSigma0 a + shaMaj a b c)
    [w32 (t1 + t2), a, b, c, w32 (d + t1), e, f, g]
  | _ => st

def processBlock (h : List Nat) (block : List Nat) : List Nat :=
  let w := schedule (bytesToWords block) 48
  let kw := (sha256K.zip w).map (fun p => w32 (p.1 + p.2))
  let st := kw.foldl sha256Round h
  (h.zip st).map (fun p => w32 (p.1 + p.2))

/-- Split into 64-byte chunks; `cur` accumulates the current chunk in
reverse. -/
def chunksAux : List Nat → List Nat → List (List Nat)
  | cur, [] => if cur.isEmpty then [] else [cur.reverse]
  | cur, b :: bs =>
    if cur.length = 63 then (b :: cur).reverse :: chunksAux [] bs
    else chunksAux (b :: cur) bs

def chunks64 (l : List Nat) : List (List Nat) := chunksAux [] l

def sha256Bytes (msg : List Nat) : List Nat :=
  let hs := (chunks64 (sha256Pad msg)).foldl processBlock sha256H0
  (hs.map (beBytes 4)).flatten

def hexChar (n : Nat) : Char :=
  if n < 10 then Char.ofNat (48 + n) else Char.ofNat (87 + n)

/-- `hexdigest()`: lowercase hex of a byte string. -/
def hexdigest (bytes : List Nat) : List Char :=
  (bytes.map (fun b => [hexChar (b / 16), hexChar (b % 16)])).flatten

/-- Python `str.encode()` (UTF-8). -/
def utf8Bytes (c : Char) : List Nat :=
  let n := c.toNat
  if n < 0x80 then [n]
  else if n < 0x800 then [0xc0 + n / 0x40, 0x80 + n % 0x40]
  else if n < 0x10000 then
    [0xe0 + n / 0x1000, 0x80 + (n / 0x40) % 0x40, 0x80 + n % 0x40]
  else
    [0xf0 + n / 0x40000, 0x80 + (n / 0x1000) % 0x40,
     0x80 + (n / 0x40) % 0x40, 0x80 + n % 0x40]

def encodeUtf8 (s : List Char) : List Nat := (s.map utf8Bytes).flatten

/-! ## Entities (entities.py) -/

/-- Clamp `max(0.0, min(1.0, x))` used by the dataclass validators. -/
def clamp01 (x : ℚ) : ℚ := max 0 (min 1 x)

/-- `ResolvedEntity.create_entity_id` (entities.py lines 63-74):
`hashlib.sha256(canonical_name.lower().encode()).hexdigest()[:16]`. -/
def create_entity_id (canonical_name : List Char) : List Char :=
  (hexdigest (sha256Bytes (encodeUtf8 (canonical_name.map Char.toLower)))).take 16

structure ResolvedEntity where
  entity_id : List Char
  canonical_name : List Char
  aliases : List (List Char)
  sources : List (List Char)
  confidence : ℚ
  created_at : ℚ
deriving DecidableEq

/-- `ResolvedEntity.__init__` followed by `__post_init__` (entities.py
lines 35-42): aliases and sources are deduplicated preserving order
(`dict.fromkeys`), confidence is clamped to `[0, 1]`.  `created_at`
(a `datetime`) is abstracted as a rational. -/
def mkResolvedEntity (entity_id canonical_name : List Char)
    (aliases sources : List (List Char)) (confidence created_at : ℚ) :
    ResolvedEntity :=
  ⟨entity_id, canonical_name, dedupFirst aliases, dedupFirst sources,
   clamp01 confidence, created_at⟩

/-- `create_resolved_entities` (entities.py lines 111-154).  The
`canonical_map` parameter of the Python function is never read and is
omitted; dicts are association lists in insertion order; `datetime.utcnow()`
is the explicit parameter `now`. -/
def create_resolved_entities (clusters : List (List Char × List (List Char)))
    (scores : List (List Char × ℚ)) (sources : List (List Char × List (List Char)))
    (now : ℚ) : List ResolvedEntity :=
  clusters.map (fun cl =>
    let canonical_name := cl.1
    let aliases := cl.2
    let alias_scores := aliases.map (fun a => (alookup scores a).getD 1)
    let avg_confidence :=
      if alias_scores = [] then 1
      else alias_scores.sum / (alias_scores.length : ℚ)
    let entity_sources := (aliases.map (fun a => (alookup sources a).getD [])).flatten
    mkResolvedEntity (create_entity_id canonical_name) canonical_name
      aliases entity_sources avg_confidence now)

/-! ## Relevance model (relevance.py) -/

def VALID_CATEGORIES : List (List Char) :=
  ["cloud", "network", "endpoint", "identity", "vulnerability", "malware",
   "data", "governance", "cryptography", "application", "iot",
   "unknown"].map String.toList

structure RelevanceResult where
  item_id : List Char
  source_type : List Char
  is_relevant : Bool
  score : ℚ
  category : List Char
  reasons : List (List Char)
  model : List Char
  model_version : List Char
  timestamp : ℚ
  hash : List Char
deriving DecidableEq

/-- `RelevanceResult.__init__` followed by `__post_init__`
(relevance.py lines 43-58): the score is clamped to `[0, 1]`, the
category is lowercased and stripped, and an empty hash is replaced by
the 16-hex SHA-256 of `f"{item_id}:{source_type}:{model}"`.  The
`reasons`-is-a-list coercion is a no-op in the typed embedding; the
timestamp (a `datetime`) is abstracted as a rational. -/
def mkRelevanceResult (item_id source_type : List Char) (is_relevant : Bool)
    (score : ℚ) (category : List Char) (reasons : List (List Char))
    (model model_version : List Char) (timestamp : ℚ) (hash : List Char) :
    RelevanceResult :=
  let hash' :=
    if hash = [] then
      (hexdigest (sha256Bytes (encodeUtf8
        (item_id ++ ':' :: source_type ++ ':' :: model)))).take 16
    else hash
  ⟨item_id, source_type, is_relevant, clamp01 score,
   pystrip (category.map Char.toLower), reasons, model, model_version,
   timestamp, hash'⟩

/-- The fuzzy-mapping dict of `normalize_category` (relevance.py lines
181-196), in insertion order. -/
def CATEGORY_MAPPINGS : List (List Char × List Char) :=
  [("vuln", "vulnerability"), ("cve", "vulnerability"),
   ("crypto", "cryptography"), ("encryption", "cryptography"),
   ("iam", "identity"), ("access", "identity"), ("auth", "identity"),
   ("sec", "network"), ("cloud security", "cloud"),
   ("endpoint protection", "endpoint"), ("threat", "malware"),
   ("ransomware", "malware"), ("compliance", "governance"),
   ("policy", "governance")].map (fun p => (p.1.toList, p.2.toList))

/-- Python substring test `needle in hay`. -/
def containsSub (needle : List Char) : List Char → Bool
  | [] => needle.isEmpty
  | c :: t => needle.isPrefixOf (c :: t) || containsSub needle t

/-- `normalize_category` (relevance.py lines 164-202): lowercase and
strip, accept members of the closed set, otherwise the first fuzzy
mapping whose key is a substring, otherwise `unknown`. -/
def normalize_category (category : List Char) : List Char :=
  let c := pystrip (category.map Char.toLower)
  if c ∈ VALID_CATEGORIES then c
  else
    match CATEGORY_MAPPINGS.find? (fun p => containsSub p.1 c) with
    | some p => p.2
    | none => "unknown".toList

/-! ## Relevance heuristics (relevance_heuristics.py) -/

/-- `RelevanceHeuristics.CATEGORY_KEYWORDS` (relevance_heuristics.py
lines 65-76), in dict insertion order. -/
def CATEGORY_KEYWORDS : List (List Char × List (List Char)) :=
  [("cloud", ["cloud security", "aws security", "azure security",
              "gcp security", "saas security", "serverless"]),
   ("network", ["firewall", "ids", "ips", "ddos", "vpn",
                "network security", "perimeter"]),
   ("endpoint", ["edr", "endpoint", "antivirus", "anti-virus",
                 "device security", "mobile security"]),
   ("identity", ["iam", "identity", "authentication", "authorization",
                 "sso", "mfa", "access management"]),
   ("vulnerability", ["vulnerability", "cve", "exploit", "patch",
                      "zero-day", "zero day"]),
   ("malware", ["malware", "ransomware", "trojan", "worm", "virus",
                "botnet", "c2", "command and control"]),
   ("data", ["encryption", "dlp", "data loss", "privacy", "gdpr",
             "key management", "data protection"]),
   ("governance", ["compliance", "audit", "policy", "risk", "sox",
                   "hipaa", "pci"]),
   ("cryptography", ["cryptograph", "encryption", "decrypt", "cipher",
                     "pki", "tls", "ssl", "hash"]),
   ("application", ["appsec", "application security", "sast", "dast",
                    "waf", "api security"])].map
    (fun p => (p.1.toList, p.2.map String.toList))

/-- `RelevanceHeuristics._detect_category` (relevance_heuristics.py
lines 225-245): per-category substring-hit counts, dropping zero-count
categories, then Python `max(dict, key=dict.get)` which keeps the first
key (in dict insertion order) whose count is maximal; `unknown` if no
category scored. -/
def detect_category (text : List Char) : List Char :=
  let category_scores :=
    (CATEGORY_KEYWORDS.map (fun ck =>
      (ck.1, (ck.2.filter (fun kw => containsSub kw text)).length))).filter
      (fun p => 0 < p.2)
  match category_scores with
  | [] => "unknown".toList
  | p :: ps => (pyMaxByKey (fun q => q.2) p ps).1

/-! ## Gemini client rate limiting (gemini_client.py)

Wall-clock time is explicit: `time.time()` values are rationals, and
`time.sleep(d)` advances the clock by exactly `d`.  The `outcome`
function tells whether the i-th API attempt returns (`true`) or raises
(`false`); `delta i ` is the (nonnegative, arbitrary) real time that
elapses between the previous clock observation and the i-th attempt's
`time.time()` call. -/

def max_rpm : Nat := 15

/-- The purge `[ts for ts in self.request_timestamps if now - ts < 60]`
(gemini_client.py lines 119-122). -/
def purgeWindow (now : ℚ) (ts : List ℚ) : List ℚ :=
  ts.filter (fun t => now - t < 60)

/-- `GeminiClient._enforce_rate_limit` (gemini_client.py lines 111-134):
purge, then if at least `max_rpm` timestamps remain sleep until the
oldest is 60 s old.  Returns the purged list and the clock after the
possible sleep.  `request_timestamps[0]` is modelled as `headD 0`; the
default is unreachable since the guard forces at least 15 entries. -/
def enforce_rate_limit (now : ℚ) (ts : List ℚ) : List ℚ × ℚ :=
  let kept := purgeWindow now ts
  if max_rpm ≤ kept.length then
    let oldest := kept.headD 0
    let sleep_time := 60 - (now - oldest)
    if 0 < sleep_time then (kept, now + sleep_time) else (kept, now)
  else (kept, now)

/-- One dispatched API attempt: its `time.time()` stamp and the number
of previously recorded timestamps lying inside the preceding 60-second
window at that moment. -/
structure Dispatch where
  time : ℚ
  windowBefore : Nat
deriving DecidableEq

structure GenResult where
  ok : Bool
  events : List Dispatch
  timestamps : List ℚ
deriving DecidableEq

/-- The retry loop of `GeminiClient.generate_content` (gemini_client.py
lines 161-188): each attempt appends its own `time.time()` to the
window and dispatches; on failure it sleeps `2 ^ attempt` seconds
unless it was the last attempt, in which case the call raises
(`ok = false`). -/
def attemptLoop (outcome : Nat → Bool) (delta : Nat → ℚ) :
    Nat → Nat → ℚ → List ℚ → List Dispatch → GenResult
  | 0, _, _, ts, evs => ⟨false, evs.reverse, ts⟩
  | 1, i, t, ts, evs =>
    let now := t + delta i
    let ev : Dispatch := ⟨now, (purgeWindow now ts).length⟩
    let ts' := ts ++ [now]
    if outcome i then ⟨true, (ev :: evs).reverse, ts'⟩
    else ⟨false, (ev :: evs).reverse, ts'⟩
  | rem + 2, i, t, ts, evs =>
    let now := t + delta i
    let ev : Dispatch := ⟨now, (purgeWindow now ts).length⟩
    let ts' := ts ++ [now]
    if outcome i then ⟨true, (ev :: evs).reverse, ts'⟩
    else attemptLoop outcome delta (rem + 1) (i + 1) (now + 2 ^ i) ts' (ev :: evs)

/-- `GeminiClient.generate_content` (gemini_client.py lines 136-188),
rate-limiting behaviour only: the input-validation guard (which raises
before touching the limiter) is outside the model.  The limiter is
consulted once, before the first attempt. -/
def generate_content (outcome : Nat → Bool) (delta : Nat → ℚ)
    (max_retries : Nat) (t0 : ℚ) (ts0 : List ℚ) : GenResult :=
  let p := enforce_rate_limit t0 ts0
  attemptLoop outcome delta max_retries 0 p.2 p.1 []

/-! ## DAG scheduler (dag.py) -/

/-- Association-list update, used for Python `dict` assignment: update
in place when the key exists, append otherwise. -/
def aupdate {α β : Type} [DecidableEq α] : List (α × β) → α → β → List (α × β)
  | [], k, v => [(k, v)]
  | (k', v') :: rest, k, v =>
    if k = k' then (k, v) :: rest else (k', v') :: aupdate rest k v

inductive NodeStatus where
  | pending
  | running
  | success
  | failed
  | skipped
deriving DecidableEq

/-- A `DAGNode` (dag.py lines 25-43); its work function is abstracted
by `outcome`: `true` if `fn(ctx)` returns, `false` if it raises. -/
structure DAGNode where
  name : List Char
  outcome : Bool
  dependencies : List (List Char)
deriving DecidableEq

/-- Lexicographic (code-point) order on strings, the order Python
`list.sort()` uses on `str`. -/
def charListLt : List Char → List Char → Bool
  | [], [] => false
  | [], _ :: _ => true
  | _ :: _, [] => false
  | x :: xs, y :: ys =>
    if x < y then true else if y < x then false else charListLt xs ys

def insertSorted (x : List Char) : List (List Char) → List (List Char)
  | [] => [x]
  | y :: ys => if charListLt x y then x :: y :: ys else y :: insertSorted x ys

/-- Python `queue.sort()` (stable, ascending), as insertion sort. -/
def sortNames : List (List Char) → List (List Char)
  | [] => []
  | x :: xs => insertSorted x (sortNames xs)

/-- The Kahn loop of `DAG.get_execution_order` (dag.py lines 140-151):
sort the queue, pop the first name, append it to the result, decrement
the in-degree of every node (in declaration order) that depends on it
and enqueue those reaching zero.  `fuel` bounds the iteration count;
each node enters the queue at most once, so `nodes.length + 1` fuel is
never exhausted. -/
def kahnLoop (nodes : List DAGNode) :
    Nat → List (List Char) → List (List Char × Int) → List (List Char) →
    List (List Char)
  | 0, _, _, result => result.reverse
  | fuel + 1, queue, indeg, result =>
    match sortNames queue with
    | [] => result.reverse
    | current :: rest =>
      let step := nodes.foldl
        (fun (acc : List (List Char × Int) × List (List Char)) node =>
          if current ∈ node.dependencies then
            let d := (alookup acc.1 node.name).getD 0 - 1
            (aupdate acc.1 node.name d,
             if d = 0 then acc.2 ++ [node.name] else acc.2)
          else acc)
        (indeg, rest)
      kahnLoop nodes fuel step.2 step.1 (current :: result)

/-- `DAG.get_execution_order` (dag.py lines 117-156), without the final
length check (done by the caller below). -/
def get_execution_order (nodes : List DAGNode) : List (List Char) :=
  let indeg0 : List (List Char × Int) :=
    nodes.map (fun n => (n.name, (n.dependencies.length : Int)))
  let queue0 := (nodes.filter (fun n => n.dependencies.isEmpty)).map
    (fun n => n.name)
  kahnLoop nodes (nodes.length + 1) queue0 indeg0 []

/-- The execution loop of `DAG.execute` (dag.py lines 177-199): walk the
topological order; skip a node when one of its direct dependencies is
in the `failed` set; otherwise run it, marking `success` or `failed`;
on failure with `fail_fast` stop, else record the failure and continue.
Statuses start `pending` and are updated in place. -/
def execLoop (nodes : List DAGNode) (fail_fast : Bool) :
    List (List Char) → List (List Char) → List (List Char × NodeStatus) →
    List (List Char × NodeStatus)
  | [], _, statuses => statuses
  | current :: rest, failedSet, statuses =>
    match nodes.find? (fun n => n.name = current) with
    | none => execLoop nodes fail_fast rest failedSet statuses
    | some node =>
      if node.dependencies.any (fun d => d ∈ failedSet) then
        execLoop nodes fail_fast rest failedSet
          (aupdate statuses current NodeStatus.skipped)
      else if node.outcome then
        execLoop nodes fail_fast rest failedSet
          (aupdate statuses current NodeStatus.success)
      else
        let statuses' := aupdate statuses current NodeStatus.failed
        if fail_fast then statuses'
        else execLoop nodes fail_fast rest (failedSet ++ [current]) statuses'

/-- `DAG.execute` (dag.py lines 158-216), returning the per-node
statuses of the summary (`none` models a raised `ValueError`).
`validate` raises on a dependency naming a missing node or on a cycle;
`get_execution_order` raises on a cycle via its length check (dag.py
lines 153-154) — the model returns `none` in exactly those situations,
the DFS cycle test and the Kahn length test rejecting the same graphs. -/
def dag_execute (nodes : List DAGNode) (fail_fast : Bool) :
    Option (List (List Char × NodeStatus)) :=
  if nodes.any (fun n => n.dependencies.any
      (fun d => ¬ nodes.any (fun m => m.name = d))) then none
  else
    let order := get_execution_order nodes
    if order.length ≠ nodes.length then none
    else
      some (execLoop nodes fail_fast order []
        (nodes.map (fun n => (n.name, NodeStatus.pending))))

/-! ## UnionFind (clusterer.py lines 15-72)

The two dicts of the Python class are insertion-ordered association
lists.  The recursion of `find` is modelled with explicit fuel; ranks
strictly increase along parent chains (an invariant proved below), so
`maxRank + 1` fuel is never exhausted in any reachable state. -/

structure UnionFind where
  parent : List (List Char × List Char)
  rank : List (List Char × Nat)
deriving DecidableEq

def UnionFind.emptyUF : UnionFind := ⟨[], []⟩

def maxRank (s : UnionFind) : Nat := (s.rank.map Prod.snd).foldr max 0

/-- `UnionFind.find` (clusterer.py lines 23-33) with explicit fuel:
insert unknown elements as their own root, follow and compress the
parent chain otherwise. -/
def findFuel : Nat → UnionFind → List Char → List Char × UnionFind
  | 0, s, x => (x, s)
  | fuel + 1, s, x =>
    match alookup s.parent x with
    | none => (x, ⟨s.parent ++ [(x, x)], s.rank ++ [(x, 0)]⟩)
    | some p =>
      if p = x then (x, s)
      else
        let r := findFuel fuel s p
        (r.1, ⟨aupdate r.2.parent x r.1, r.2.rank⟩)

def find (s : UnionFind) (x : List Char) : List Char × UnionFind :=
  findFuel (maxRank s + 1) s x

/-- The parent-chain root without path compression, used to state
specifications; under the rank invariant it agrees with `find`. -/
def rootFuel : Nat → List (List Char × List Char) → List Char → List Char
  | 0, _, x => x
  | fuel + 1, p, x =>
    match alookup p x with
    | none => x
    | some px => if px = x then x else rootFuel fuel p px

def root (s : UnionFind) (x : List Char) : List Char :=
  rootFuel (maxRank s + 1) s.parent x

/-- `UnionFind.union` (clusterer.py lines 35-57): find both roots,
return `false` if equal, otherwise link by rank (`rank[root]` accesses
never miss in reachable states; `getD 0` is the unreachable default). -/
def union (s : UnionFind) (x y : List Char) : Bool × UnionFind :=
  let fx := find s x
  let fy := find fx.2 y
  let root_x := fx.1
  let root_y := fy.1
  let s2 := fy.2
  if root_x = root_y then (false, s2)
  else
    let rx := (alookup s2.rank root_x).getD 0
    let ry := (alookup s2.rank root_y).getD 0
    if rx < ry then (true, ⟨aupdate s2.parent root_x root_y, s2.rank⟩)
    else if ry < rx then (true, ⟨aupdate s2.parent root_y root_x, s2.rank⟩)
    else (true, ⟨aupdate s2.parent root_y root_x, aupdate s2.rank root_x (rx + 1)⟩)

/-- Append `x` to the cluster of `root`, creating the cluster on first
use (`defaultdict(list)` in insertion order). -/
def addToCluster (clusters : List (List Char × List (List Char)))
    (r x : List Char) : List (List Char × List (List Char)) :=
  match clusters with
  | [] => [(r, [x])]
  | c :: cs => if c.1 = r then (c.1, c.2 ++ [x]) :: cs
               else c :: addToCluster cs r x

/-- `UnionFind.get_clusters` (clusterer.py lines 59-72): group the keys
of `parent` (in insertion order) by their `find` root; the loop's
`find` calls thread the (compressed) state. -/
def get_clusters (s : UnionFind) : List (List Char × List (List Char)) :=
  ((s.parent.map Prod.fst).foldl
    (fun (acc : UnionFind × List (List Char × List (List Char))) x =>
      let f := find acc.1 x
      (f.2, addToCluster acc.2 f.1 x))
    (s, [])).2

/-- A recorded operation on the structure: a bare `find(x)` call or a
`union(x, y)` call. -/
inductive UFOp where
  | findOp (x : List Char)
  | unionOp (x y : List Char)
deriving DecidableEq

def execOps (ops : List UFOp) : UnionFind :=
  ops.foldl
    (fun s op =>
      match op with
      | UFOp.findOp x => (find s x).2
      | UFOp.unionOp x y => (union s x y).2)
    UnionFind.emptyUF

/-- The elements that appeared as arguments to `find` or `union`. -/
def argsOf (ops : List UFOp) : List (List Char) :=
  ops.foldr
    (fun op acc =>
      match op with
      | UFOp.findOp x => x :: acc
      | UFOp.unionOp x y => x :: y :: acc)
    []

/-- The unordered pairs passed to `union`. -/
def unionPairs (ops : List UFOp) : List (List Char × List Char) :=
  ops.foldr
    (fun op acc =>
      match op with
      | UFOp.findOp _ => acc
      | UFOp.unionOp x y => (x, y) :: acc)
    []

/-- Connectivity by a chain of `union` calls: the least equivalence
relation containing the recorded union pairs. -/
inductive Linked (pairs : List (List Char × List Char)) :
    List Char → List Char → Prop
  | refl (x) : Linked pairs x x
  | base {x y} : (x, y) ∈ pairs → Linked pairs x y
  | symm {x y} : Linked pairs x y → Linked pairs y x
  | trans {x y z} : Linked pairs x y → Linked pairs y z → Linked pairs x z

/-- The closure of a base relation together with a pair list, used to
state how executing a tail of operations refines an intermediate
state's root-equivalence. -/
inductive LinkedOver (R : List Char → List Char → Prop)
    (pairs : List (List Char × List Char)) : List Char → List Char → Prop
  | base {x y} : R x y → LinkedOver R pairs x y
  | pair {x y} : (x, y) ∈ pairs → LinkedOver R pairs x y
  | symm {x y} : LinkedOver R pairs x y → LinkedOver R pairs y x
  | trans {x y z} : LinkedOver R pairs x y → LinkedOver R pairs y z →
      LinkedOver R pairs x z

/-- The grouping loop of `get_clusters` in recursive form (equal to
its `foldl`, proved below). -/
def clustersFold (u : UnionFind)
    (acc : List (List Char × List (List Char))) :
    List (List Char) → UnionFind × List (List Char × List (List Char))
  | [] => (u, acc)
  | k :: rem =>
    clustersFold (find u k).2 (addToCluster acc (find u k).1 k) rem

/-- The rank of an element (`self.rank[x]`), defaulting to 0 for
absent elements (Python would raise; the default is never consulted in
reachable states). -/
def rnk (s : UnionFind) (x : List Char) : Nat := (alookup s.rank x).getD 0

/-- The representation invariant of every reachable `UnionFind` state:
parent keys are distinct, rank and parent have the same keys in the
same order, parent values are themselves keys, and rank strictly
increases along non-trivial parent links (which bounds every parent
chain by `maxRank`, so the recursion of the Python `find` terminates). -/
structure Inv (s : UnionFind) : Prop where
  nodupKeys : (s.parent.map Prod.fst).Nodup
  rankKeys : s.rank.map Prod.fst = s.parent.map Prod.fst
  closed : ∀ x p, alookup s.parent x = some p → p ∈ s.parent.map Prod.fst
  rankUp : ∀ x p, alookup s.parent x = some p → p ≠ x → rnk s x < rnk s p

/-- `execOps` restarted from an arbitrary state, for induction over the
operation list. -/
def execFrom (s : UnionFind) (ops : List UFOp) : UnionFind :=
  ops.foldl
    (fun s op =>
      match op with
      | UFOp.findOp x => (find s x).2
      | UFOp.unionOp x y => (union s x y).2)
    s

/-! # Theorems -/

/-! ## Shared helper lemmas -/

/-- Python `max(key=...)` keeps the earliest maximal element: the result
splits the list into a strict-smaller prefix, the result, and a tail,
and dominates every element. -/
theorem pyMaxByKey_spec {α : Type} (key : α → Nat) (b : α) (xs : List α) :
    ∃ pre post, b :: xs = pre ++ pyMaxByKey key b xs :: post ∧
      (∀ y ∈ pre, key y < key (pyMaxByKey key b xs)) ∧
      (∀ y ∈ b :: xs, key y ≤ key (pyMaxByKey key b xs)) := by
  induction xs generalizing b with
  | nil =>
    refine ⟨[], [], by simp [pyMaxByKey], by simp, ?_⟩
    intro y hy
    simp only [List.mem_singleton] at hy
    simp [hy, pyMaxByKey]
  | cons x xs ih =>
    by_cases h : key b < key x
    · have hr : pyMaxByKey key b (x :: xs) = pyMaxByKey key x xs := by
        simp [pyMaxByKey, h]
      obtain ⟨pre, post, hdec, hpre, hmax⟩ := ih x
      have hxr : key x ≤ key (pyMaxByKey key x xs) := hmax x (by simp)
      refine ⟨b :: pre, post, ?_, ?_, ?_⟩
      · rw [hr, List.cons_append, ← hdec]
      · intro y hy
        rw [hr]
        rcases List.mem_cons.mp hy with rfl | hy
        · exact lt_of_lt_of_le h hxr
        · exact hpre y hy
      · intro y hy
        rw [hr]
        rcases List.mem_cons.mp hy with rfl | hy
        · exact le_of_lt (lt_of_lt_of_le h hxr)
        · exact hmax y hy
    · have hr : pyMaxByKey key b (x :: xs) = pyMaxByKey key b xs := by
        simp [pyMaxByKey, h]
      have hxb : key x ≤ key b := le_of_not_lt h
      obtain ⟨pre, post, hdec, hpre, hmax⟩ := ih b
      have hbr : key b ≤ key (pyMaxByKey key b xs) := hmax b (by simp)
      match pre, hdec with
      | [], hdec =>
        have hb : pyMaxByKey key b xs = b := by
          simpa using congrArg List.head? hdec.symm
        refine ⟨[], x :: xs, ?_, by simp, ?_⟩
        · rw [hr, hb]; simp
        · intro y hy
          rw [hr, hb]
          rcases List.mem_cons.mp hy with rfl | hy
          · exact le_refl _
          · rcases List.mem_cons.mp hy with rfl | hy
            · exact hxb
            · have := hmax y (by simp [hy])
              rwa [hb] at this
      | p :: pre', hdec =>
        have hph : p = b := by
          have := congrArg List.head? hdec
          simp only [List.head?_cons, List.cons_append, Option.some.injEq] at this
          exact this.symm
        have htl : xs = pre' ++ pyMaxByKey key b xs :: post := by
          simpa using congrArg List.tail hdec
        refine ⟨b :: x :: pre', post, ?_, ?_, ?_⟩
        · rw [hr, List.cons_append, List.cons_append, ← htl]
        · intro y hy
          rw [hr]
          have hbstrict : key b < key (pyMaxByKey key b xs) := by
            have := hpre p (by simp)
            rwa [hph] at this
          rcases List.mem_cons.mp hy with rfl | hy
          · exact hbstrict
          · rcases List.mem_cons.mp hy with rfl | hy
            · exact lt_of_le_of_lt hxb hbstrict
            · exact hpre y (by simp [hy])
        · intro y hy
          rw [hr]
          rcases List.mem_cons.mp hy with rfl | hy
          · exact hbr
          · rcases List.mem_cons.mp hy with rfl | hy
            · exact le_trans hxb hbr
            · exact hmax y (by simp [hy])

/-- The result of Python `max(key=...)` is an element of the list. -/
theorem pyMaxByKey_mem {α : Type} (key : α → Nat) (b : α) (xs : List α) :
    pyMaxByKey key b xs ∈ b :: xs := by
  obtain ⟨pre, post, hdec, -, -⟩ := pyMaxByKey_spec key b xs
  rw [hdec]
  simp

/-- `max(key=...)` commutes with tagging each element by `map`. -/
theorem pyMaxByKey_map {α β : Type} (key : β → Nat) (f : α → β) (b : α)
    (xs : List α) :
    pyMaxByKey key (f b) (xs.map f) = f (pyMaxByKey (fun a => key (f a)) b xs) := by
  induction xs generalizing b with
  | nil => simp [pyMaxByKey]
  | cons x xs ih =>
    simp only [List.map_cons, pyMaxByKey]
    by_cases h : key (f b) < key (f x)
    · simp only [h, if_true, gt_iff_lt, ih]
    · simp only [h, if_false, gt_iff_lt, ih]

/-- Splitting a `filter` result around a chosen element lifts to a
splitting of the original list whose extra prefix elements all fail the
predicate. -/
theorem filter_split {α : Type} (p : α → Bool) (l a b : List α) (x : α)
    (h : l.filter p = a ++ x :: b) :
    ∃ a' b', l = a' ++ x :: b' ∧ a'.filter p = a ∧ b'.filter p = b := by
  induction l generalizing a with
  | nil => simp at h
  | cons y l ih =>
    by_cases hy : p y
    · rw [List.filter_cons_of_pos hy] at h
      match a, h with
      | [], h =>
        have hx : y = x := by simpa using congrArg List.head? h
        have hb : l.filter p = b := by simpa using congrArg List.tail h
        exact ⟨[], l, by rw [hx]; simp, by simp, hb⟩
      | a0 :: a', h =>
        have ha0 : y = a0 := by simpa using congrArg List.head? h
        have htl : l.filter p = a' ++ x :: b := by
          simpa using congrArg List.tail h
        obtain ⟨a2, b2, hdec, hfa, hfb⟩ := ih a' htl
        exact ⟨y :: a2, b2, by rw [hdec]; simp, by
          rw [List.filter_cons_of_pos hy, hfa, ha0], hfb⟩
    · rw [List.filter_cons_of_neg hy] at h
      obtain ⟨a2, b2, hdec, hfa, hfb⟩ := ih a h
      exact ⟨y :: a2, b2, by rw [hdec]; simp, by
        rw [List.filter_cons_of_neg hy, hfa], hfb⟩

/-! ## C1 — DAG failure propagation -/

/-- C1: evaluating `DAG.execute` on the chain `A → B → C` with
`fail_fast=false` and `A` raising.  The claim (and the specification's
scenario 6) expects `A=failed, B=skipped, C=skipped`; the code skips
only nodes with a *directly* failed dependency and never adds skipped
nodes to the `failed` set, so `C` is executed and ends `success`. -/
theorem dag_execute_chain_skips_only_direct_dependent :
    dag_execute
      [⟨"A".toList, false, []⟩,
       ⟨"B".toList, true, ["A".toList]⟩,
       ⟨"C".toList, true, ["B".toList]⟩] false =
    some [("A".toList, NodeStatus.failed),
          ("B".toList, NodeStatus.skipped),
          ("C".toList, NodeStatus.success)] := by decide

/-! ## C4 — canonical selection under the default strategy -/

/-- C4 counterexample: `"beta"` and `"alfa"` tie on normalized length
and `"alfa"` is lexicographically smaller, yet the default-strategy
selection returns whichever member comes first in the cluster list, so
it is neither the lexicographically smallest nor order-independent. -/
theorem select_canonical_tie_uses_list_order :
    (normalize "beta".toList).length = (normalize "alfa".toList).length ∧
    charListLt "alfa".toList "beta".toList = true ∧
    select_canonical ["beta".toList, "alfa".toList] = "beta".toList ∧
    select_canonical ["alfa".toList, "beta".toList] = "alfa".toList := by
  decide

/-- C4 (amended): under the default `'longest'` strategy the selection
returns a member whose normalized form has maximal length, and among
the members attaining that maximum it returns the one listed *first*
(Python `max` keeps the earliest maximal element); ties are therefore
broken by list position, not lexicographically, and the choice depends
on member order. -/
theorem select_canonical_first_longest (names : List (List Char))
    (h : names ≠ []) :
    select_canonical names ∈ names ∧
    (∀ m ∈ names,
      (normalize m).length ≤ (normalize (select_canonical names)).length) ∧
    ∃ pre post, names = pre ++ select_canonical names :: post ∧
      ∀ m ∈ pre, (normalize m).length < (normalize (select_canonical names)).length := by
  match names, h with
  | n :: rest, _ =>
    have hsel : select_canonical (n :: rest) =
        pyMaxByKey (fun m => (normalize m).length) n rest := by
      match rest with
      | [] => simp [select_canonical, pyMaxByKey]
      | r :: rs =>
        show (pyMaxByKey (fun q => q.2) (n, (normalize n).length)
          ((r :: rs).map (fun m => (m, (normalize m).length)))).1 = _
        rw [show ((n, (normalize n).length) : List Char × Nat) =
          (fun m => (m, (normalize m).length)) n from rfl,
          pyMaxByKey_map (fun q : List Char × Nat => q.2)
            (fun m => (m, (normalize m).length)) n (r :: rs)]
    rw [hsel]
    obtain ⟨pre, post, hdec, hpre, hmax⟩ :=
      pyMaxByKey_spec (fun m => (normalize m).length) n rest
    refine ⟨by rw [hdec]; simp, hmax, pre, post, hdec, hpre⟩

/-- C4 witness: apply the amended theorem to the concrete cluster
`["acme corporation", "acme"]`. -/
theorem select_canonical_first_longest_witness :
    select_canonical ["acme corporation".toList, "acme".toList] ∈
      ["acme corporation".toList, "acme".toList] ∧
    (∀ m ∈ ["acme corporation".toList, "acme".toList],
      (normalize m).length ≤
        (normalize (select_canonical ["acme corporation".toList, "acme".toList])).length) ∧
    ∃ pre post, ["acme corporation".toList, "acme".toList] =
        pre ++ select_canonical ["acme corporation".toList, "acme".toList] :: post ∧
      ∀ m ∈ pre, (normalize m).length <
        (normalize (select_canonical ["acme corporation".toList, "acme".toList])).length :=
  select_canonical_first_longest _ (by decide)

/-! ## C7 — heuristic category detection -/

/-- C7 counterexample: in `"serverless appsec"` the categories `cloud`
and `application` tie with one keyword hit each (and every other
category has none), yet the detector returns `cloud`: Python `max` over
the insertion-ordered dict breaks the tie by the `CATEGORY_KEYWORDS`
declaration order, in which `cloud` precedes `application` — not by the
lexicographic order the claim states, which would pick `application`. -/
theorem detect_category_tie_not_lex :
    (CATEGORY_KEYWORDS.map (fun ck =>
        (ck.1, (ck.2.filter (fun kw =>
          containsSub kw "serverless appsec".toList)).length))).filter
        (fun p => 0 < p.2) =
      [("cloud".toList, 1), ("application".toList, 1)] ∧
    detect_category "serverless appsec".toList = "cloud".toList := by decide

/-- C7 (amended): the detector returns `unknown` when no category
keyword hits; otherwise it returns a category whose hit count is
maximal, and among the categories attaining the maximum it returns the
one declared *first* in `CATEGORY_KEYWORDS` (cloud, network, endpoint,
identity, vulnerability, malware, data, governance, cryptography,
application) — the tie-break is this fixed declaration order, not the
lexicographic order over names. -/
theorem detect_category_argmax_first_decl (text : List Char) :
    ((∀ p ∈ CATEGORY_KEYWORDS.map (fun ck =>
        (ck.1, (ck.2.filter (fun kw => containsSub kw text)).length)),
        p.2 = 0) →
      detect_category text = "unknown".toList) ∧
    ((∃ p ∈ CATEGORY_KEYWORDS.map (fun ck =>
        (ck.1, (ck.2.filter (fun kw => containsSub kw text)).length)),
        0 < p.2) →
      ∃ pre sel post,
        CATEGORY_KEYWORDS.map (fun ck =>
          (ck.1, (ck.2.filter (fun kw => containsSub kw text)).length)) =
            pre ++ sel :: post ∧
        detect_category text = sel.1 ∧
        (∀ p ∈ pre, p.2 < sel.2) ∧
        (∀ p ∈ CATEGORY_KEYWORDS.map (fun ck =>
          (ck.1, (ck.2.filter (fun kw => containsSub kw text)).length)),
          p.2 ≤ sel.2)) := by
  set scores := CATEGORY_KEYWORDS.map (fun ck =>
    (ck.1, (ck.2.filter (fun kw => containsSub kw text)).length)) with hscores
  constructor
  · intro hall
    have hfil : scores.filter (fun p => 0 < p.2) = [] := by
      rw [List.filter_eq_nil_iff]
      intro p hp
      simp [hall p hp]
    unfold detect_category
    rw [← hscores, hfil]
  · rintro ⟨q, hq, hqpos⟩
    have hqf : q ∈ scores.filter (fun p => 0 < p.2) :=
      List.mem_filter.mpr ⟨hq, by simpa using hqpos⟩
    cases hfil : scores.filter (fun p => 0 < p.2) with
    | nil => rw [hfil] at hqf; simp at hqf
    | cons c cs =>
      have hdet : detect_category text = (pyMaxByKey (fun q => q.2) c cs).1 := by
        unfold detect_category
        rw [← hscores, hfil]
      obtain ⟨preS, postS, hdecS, hpreS, hmaxS⟩ :=
        pyMaxByKey_spec (fun q : List Char × Nat => q.2) c cs
      set sel := pyMaxByKey (fun q : List Char × Nat => q.2) c cs with hselev
      have hself : sel ∈ scores.filter (fun p => 0 < p.2) := by
        rw [hfil, hdecS]; simp
      have hselpos : 0 < sel.2 := by
        simpa using (List.mem_filter.mp hself).2
      have hdecS2 : scores.filter (fun p => 0 < p.2) = preS ++ sel :: postS := by
        rw [hfil]; exact hdecS
      obtain ⟨pre, post, hdec, hfa, hfb⟩ :=
        filter_split (fun p => 0 < p.2) scores preS postS sel hdecS2
      refine ⟨pre, sel, post, hdec, hdet, ?_, ?_⟩
      · intro p hp
        by_cases hppos : 0 < p.2
        · have : p ∈ preS := by
            rw [← hfa]
            exact List.mem_filter.mpr ⟨hp, by simpa using hppos⟩
          exact hpreS p this
        · omega
      · intro p hp
        by_cases hppos : 0 < p.2
        · have : p ∈ c :: cs := by
            rw [← hfil]
            exact List.mem_filter.mpr ⟨hp, by simpa using hppos⟩
          exact hmaxS p this
        · omega

/-- C7 witness: the amended theorem applied to the text `"trojan"`,
whose only scoring category is `malware` with one hit. -/
theorem detect_category_argmax_first_decl_witness :
    ∃ pre sel post,
      CATEGORY_KEYWORDS.map (fun ck =>
        (ck.1, (ck.2.filter (fun kw =>
          containsSub kw "trojan".toList)).length)) = pre ++ sel :: post ∧
      detect_category "trojan".toList = sel.1 ∧
      (∀ p ∈ pre, p.2 < sel.2) ∧
      (∀ p ∈ CATEGORY_KEYWORDS.map (fun ck =>
        (ck.1, (ck.2.filter (fun kw => containsSub kw "trojan".toList)).length)),
        p.2 ≤ sel.2) :=
  (detect_category_argmax_first_decl "trojan".toList).2
    ⟨("malware".toList, 1), by decide, by decide⟩

/-! ## C8 — RelevanceResult invariants -/

/-- C8 counterexample: a directly constructed `RelevanceResult` keeps
the (lowercased, stripped) free-form category `"banana"`, which is not
in the closed category set — `__post_init__` clamps the score but never
projects the category through `normalize_category`. -/
theorem relevance_result_category_escapes_set :
    (mkRelevanceResult "item1".toList "news".toList true (1/2)
      "banana".toList [] "m".toList "v".toList 0 "h".toList).category ∉
      VALID_CATEGORIES := by decide

/-- C8 (amended): every `RelevanceResult`, however constructed, has
`0 ≤ score ≤ 1`; its category is the lowercased and stripped
constructor argument, which belongs to the closed category set whenever
it came through `normalize_category` (the LLM classifier path,
relevance_classifier.py line 206) or through the heuristic category
detector — but direct construction with a free-form string does not
force membership. -/
theorem relevance_result_score_clamped (item_id source_type : List Char)
    (is_relevant : Bool) (score : ℚ) (category : List Char)
    (reasons : List (List Char)) (model model_version : List Char)
    (timestamp : ℚ) (hash : List Char) :
    0 ≤ (mkRelevanceResult item_id source_type is_relevant score category
      reasons model model_version timestamp hash).score ∧
    (mkRelevanceResult item_id source_type is_relevant score category
      reasons model model_version timestamp hash).score ≤ 1 ∧
    (mkRelevanceResult item_id source_type is_relevant score category
      reasons model model_version timestamp hash).category =
      pystrip (category.map Char.toLower) ∧
    (∀ c : List Char, normalize_category c ∈ VALID_CATEGORIES) ∧
    (∀ t : List Char, detect_category t ∈ VALID_CATEGORIES) := by
  refine ⟨le_max_left 0 _, max_le (by norm_num) (min_le_left 1 _), rfl, ?_, ?_⟩
  · intro c
    unfold normalize_category
    by_cases hmem : pystrip (c.map Char.toLower) ∈ VALID_CATEGORIES
    · simp [hmem]
    · simp only [hmem, if_false]
      cases hfind : CATEGORY_MAPPINGS.find? (fun p =>
          containsSub p.1 (pystrip (c.map Char.toLower))) with
      | some p =>
        have hp : p ∈ CATEGORY_MAPPINGS := List.mem_of_find?_eq_some hfind
        have hvals : ∀ q ∈ CATEGORY_MAPPINGS, q.2 ∈ VALID_CATEGORIES := by decide
        exact hvals p hp
      | none => decide
  · intro t
    unfold detect_category
    cases hfil : (CATEGORY_KEYWORDS.map (fun ck =>
        (ck.1, (ck.2.filter (fun kw => containsSub kw t)).length))).filter
        (fun p => 0 < p.2) with
    | nil => decide
    | cons c cs =>
      have hsel : pyMaxByKey (fun q : List Char × Nat => q.2) c cs ∈ c :: cs :=
        pyMaxByKey_mem _ c cs
      rw [← hfil] at hsel
      have hsc := (List.mem_filter.mp hsel).1
      obtain ⟨ck, hck, hckeq⟩ := List.mem_map.mp hsc
      have hkeys : ∀ q ∈ CATEGORY_KEYWORDS, q.1 ∈ VALID_CATEGORIES := by decide
      have hfst : (pyMaxByKey (fun q : List Char × Nat => q.2) c cs).1 = ck.1 := by
        rw [← hckeq]
      show (pyMaxByKey (fun q : List Char × Nat => q.2) c cs).1 ∈ VALID_CATEGORIES
      rw [hfst]
      exact hkeys ck hck

/-! ## C3 — two-threshold match decision -/

/-- C3: `is_match` returns a match exactly when the composite score
reaches the hard threshold 0.88 (recording `hard_match`), or lies in
`[0.70, 0.88)` and one of the corroborators holds — acronym component
equal to 1.0, jaccard at least 0.8, or edit at least 0.9 — and the rule
recorded names the corroborator that fired, acronym checked first, then
jaccard, then edit; in every other case the pair is not a match.
Stated for any behaviour `ratio`/`jw` of the two string-metric
libraries. -/
theorem is_match_two_threshold (ratio jw : List Char → List Char → ℚ)
    (name1 name2 : List Char) (sc : ℚ × ComponentScores)
    (hsc : sc = composite_score ratio jw name1 name2) :
    ((is_match ratio jw name1 name2).1 = true ↔
      (HARD_MATCH_THRESHOLD ≤ sc.1 ∨
        (SOFT_MATCH_THRESHOLD ≤ sc.1 ∧ sc.1 < HARD_MATCH_THRESHOLD ∧
          (sc.2.acronym = 1 ∨ 8/10 ≤ sc.2.jaccard ∨ 9/10 ≤ sc.2.edit)))) ∧
    (is_match ratio jw name1 name2).2.1 = sc.1 ∧
    (HARD_MATCH_THRESHOLD ≤ sc.1 →
      (is_match ratio jw name1 name2).2.2 = ["hard_match"]) ∧
    (sc.1 < HARD_MATCH_THRESHOLD → SOFT_MATCH_THRESHOLD ≤ sc.1 →
      sc.2.acronym = 1 →
      (is_match ratio jw name1 name2).2.2 = ["soft_match_with_acronym"]) ∧
    (sc.1 < HARD_MATCH_THRESHOLD → SOFT_MATCH_THRESHOLD ≤ sc.1 →
      sc.2.acronym ≠ 1 → 8/10 ≤ sc.2.jaccard →
      (is_match ratio jw name1 name2).2.2 =
        ["soft_match_with_high_token_overlap"]) ∧
    (sc.1 < HARD_MATCH_THRESHOLD → SOFT_MATCH_THRESHOLD ≤ sc.1 →
      sc.2.acronym ≠ 1 → sc.2.jaccard < 8/10 → 9/10 ≤ sc.2.edit →
      (is_match ratio jw name1 name2).2.2 =
        ["soft_match_with_high_edit_similarity"]) ∧
    (sc.1 < SOFT_MATCH_THRESHOLD →
      (is_match ratio jw name1 name2).2.2 = ["no_match"]) := by
  have hm : is_match ratio jw name1 name2 =
      (if sc.1 ≥ HARD_MATCH_THRESHOLD then (true, sc.1, ["hard_match"])
       else if sc.1 ≥ SOFT_MATCH_THRESHOLD then
         if sc.2.acronym = 1 then (true, sc.1, ["soft_match_with_acronym"])
         else if sc.2.jaccard ≥ 8/10 then
           (true, sc.1, ["soft_match_with_high_token_overlap"])
         else if sc.2.edit ≥ 9/10 then
           (true, sc.1, ["soft_match_with_high_edit_similarity"])
         else (false, sc.1, ["soft_match_no_corroboration"])
       else (false, sc.1, ["no_match"])) := by
    rw [hsc]; rfl
  have hSH : SOFT_MATCH_THRESHOLD ≤ HARD_MATCH_THRESHOLD := by
    unfold SOFT_MATCH_THRESHOLD HARD_MATCH_THRESHOLD; norm_num
  rw [hm]
  split_ifs with h1 h2 h3 h4 h5
  · exact ⟨iff_of_true rfl (Or.inl h1), rfl, fun _ => rfl,
      fun h _ _ => absurd h (not_lt.mpr h1),
      fun h _ _ _ => absurd h (not_lt.mpr h1),
      fun h _ _ _ _ => absurd h (not_lt.mpr h1),
      fun h => absurd (lt_of_lt_of_le (lt_of_le_of_lt h1 h) hSH) (lt_irrefl _)⟩
  · exact ⟨iff_of_true rfl (Or.inr ⟨h2, lt_of_not_le h1, Or.inl h3⟩), rfl,
      fun h => absurd h h1,
      fun _ _ _ => rfl,
      fun _ _ hna _ => absurd h3 hna,
      fun _ _ hna _ _ => absurd h3 hna,
      fun h => absurd h2 (not_le.mpr h)⟩
  · exact ⟨iff_of_true rfl (Or.inr ⟨h2, lt_of_not_le h1, Or.inr (Or.inl h4)⟩),
      rfl,
      fun h => absurd h h1,
      fun _ _ ha => absurd ha h3,
      fun _ _ _ _ => rfl,
      fun _ _ _ hj _ => absurd h4 (not_le.mpr hj),
      fun h => absurd h2 (not_le.mpr h)⟩
  · exact ⟨iff_of_true rfl (Or.inr ⟨h2, lt_of_not_le h1, Or.inr (Or.inr h5)⟩),
      rfl,
      fun h => absurd h h1,
      fun _ _ ha => absurd ha h3,
      fun _ _ _ hj => absurd hj h4,
      fun _ _ _ _ _ => rfl,
      fun h => absurd h2 (not_le.mpr h)⟩
  · refine ⟨iff_of_false (by simp) ?_, rfl,
      fun h => absurd h h1,
      fun _ _ ha => absurd ha h3,
      fun _ _ _ hj => absurd hj h4,
      fun _ _ _ _ he => absurd he h5,
      fun h => absurd h2 (not_le.mpr h)⟩
    rintro (h | ⟨-, -, (ha | hj | he)⟩)
    exacts [h1 h, h3 ha, h4 hj, h5 he]
  · refine ⟨iff_of_false (by simp) ?_, rfl,
      fun h => absurd h h1,
      fun _ hs _ => absurd hs h2,
      fun _ hs _ _ => absurd hs h2,
      fun _ hs _ _ _ => absurd hs h2,
      fun _ => rfl⟩
    rintro (h | ⟨hs, -, -⟩)
    exacts [h1 h, h2 hs]

/-- C3 witness: with both library metrics constantly 1, the pair
`("acme", "acme")` has composite 0.75 (acronym component 0), which lies
in the soft band with the jaccard corroborator equal to 1, so the
decision is a match. -/
theorem is_match_two_threshold_witness :
    (is_match (fun _ _ => 1) (fun _ _ => 1) "acme".toList "acme".toList).1 =
      true :=
  (is_match_two_threshold (fun _ _ => 1) (fun _ _ => 1) "acme".toList
    "acme".toList _ rfl).1.mpr
    (Or.inr ⟨by with_unfolding_all decide, by with_unfolding_all decide,
      Or.inr (Or.inl (by with_unfolding_all decide))⟩)

/-! ## C9 — sliding-window rate limiting -/

/-- The attempt loop: its dispatched events extend the accumulator, the
timestamp list grows by exactly the dispatch times, and the first new
event is stamped `t + delta i` with the in-window count taken over the
timestamps recorded before it. -/
theorem attemptLoop_events (outcome : Nat → Bool) (delta : Nat → ℚ) :
    ∀ (rem i : Nat) (t : ℚ) (ts : List ℚ) (evs : List Dispatch),
      ∃ new, (attemptLoop outcome delta rem i t ts evs).events =
          evs.reverse ++ new ∧
        (attemptLoop outcome delta rem i t ts evs).timestamps =
          ts ++ new.map Dispatch.time ∧
        (∀ e, new.head? = some e → e.time = t + delta i ∧
          e.windowBefore = (purgeWindow (t + delta i) ts).length) := by
  intro rem
  induction rem with
  | zero =>
    intro i t ts evs
    exact ⟨[], by simp [attemptLoop], by simp [attemptLoop], by simp⟩
  | succ rem ih =>
    intro i t ts evs
    match rem with
    | 0 =>
      by_cases ho : outcome i <;>
        exact ⟨[⟨t + delta i, (purgeWindow (t + delta i) ts).length⟩],
          by simp [attemptLoop, ho], by simp [attemptLoop, ho], by simp⟩
    | rem' + 1 =>
      by_cases ho : outcome i
      · exact ⟨[⟨t + delta i, (purgeWindow (t + delta i) ts).length⟩],
          by simp [attemptLoop, ho], by simp [attemptLoop, ho], by simp⟩
      · obtain ⟨new', h1, h2, h3⟩ := ih (i + 1) (t + delta i + 2 ^ i)
          (ts ++ [t + delta i])
          (⟨t + delta i, (purgeWindow (t + delta i) ts).length⟩ :: evs)
        have harm : attemptLoop outcome delta (rem' + 1 + 1) i t ts evs =
            attemptLoop outcome delta (rem' + 1) (i + 1) (t + delta i + 2 ^ i)
              (ts ++ [t + delta i])
              (⟨t + delta i, (purgeWindow (t + delta i) ts).length⟩ :: evs) := by
          show (if outcome i then _ else _) = _
          rw [if_neg ho]
        refine ⟨⟨t + delta i, (purgeWindow (t + delta i) ts).length⟩ :: new',
          ?_, ?_, ?_⟩
        · rw [harm, h1]; simp
        · rw [harm, h2]; simp
        · intro e he
          simp only [List.head?_cons, Option.some.injEq] at he
          rw [← he]
          exact ⟨rfl, rfl⟩

/-- `_enforce_rate_limit` returns the purged window unchanged, and when
the purged window is full it returns a clock at which the oldest entry
is at least 60 s old. -/
theorem enforce_rate_limit_spec (now : ℚ) (ts : List ℚ) :
    (enforce_rate_limit now ts).1 = purgeWindow now ts ∧
    now ≤ (enforce_rate_limit now ts).2 ∧
    (max_rpm ≤ (purgeWindow now ts).length →
      ∀ oldest, (purgeWindow now ts).head? = some oldest →
        oldest + 60 ≤ (enforce_rate_limit now ts).2) := by
  refine ⟨?_, ?_, ?_⟩
  · unfold enforce_rate_limit
    dsimp only
    split_ifs <;> rfl
  · unfold enforce_rate_limit
    dsimp only
    split_ifs with h1 h2
    · show now ≤ now + (60 - (now - (purgeWindow now ts).headD 0))
      linarith
    · exact le_refl now
    · exact le_refl now
  · intro h oldest ho
    unfold enforce_rate_limit
    dsimp only
    simp only [h, if_true]
    have hhd : (purgeWindow now ts).headD 0 = oldest := by
      cases hk : purgeWindow now ts with
      | nil => rw [hk] at ho; simp at ho
      | cons o rest =>
        rw [hk] at ho
        simp only [List.head?_cons, Option.some.injEq] at ho
        simp [ho]
    rw [hhd]
    by_cases hs : 0 < 60 - (now - oldest)
    · simp only [hs, if_true]
      linarith
    · simp only [hs, if_false]
      linarith [not_lt.mp hs]

/-- C9 counterexample: with 14 timestamps recorded at time 50, a call
entered at time 55 passes the limiter (14 < 15) and its three failing
attempts dispatch at times 55, 56 and 58 with 14, 15 and 16 previously
recorded timestamps inside the preceding 60-second window — the second
and third attempts dispatch while `max_rpm = 15` or more timestamps are
in the window, because the limiter is never re-consulted between
retries. -/
theorem generate_content_retry_breaches_window :
    (generate_content (fun _ => false) (fun _ => 0) 3 55
      (List.replicate 14 (50 : ℚ))).events.map Dispatch.windowBefore =
      [14, 15, 16] ∧ max_rpm = 15 := by
  with_unfolding_all decide

/-- C9 (amended): the limiter runs once per `generate_content` call,
before the first attempt: it purges timestamps older than 60 s and, if
at least `max_rpm` remain, sleeps until the oldest ages out (so the
first attempt of a call entered with fewer than `max_rpm` in-window
timestamps dispatches with fewer than `max_rpm` in the window, and a
full window delays the first attempt past `oldest + 60`); every
attempt, including each failing retry, appends its own timestamp; but
retry attempts dispatch without re-consulting the limiter and can run
while `max_rpm` or more recorded timestamps lie inside the preceding
60-second window. -/
theorem generate_content_rate_limit (outcome : Nat → Bool) (delta : Nat → ℚ)
    (max_retries : Nat) (t0 : ℚ) (ts0 : List ℚ) (hd : 0 ≤ delta 0) :
    (generate_content outcome delta max_retries t0 ts0).timestamps =
      purgeWindow t0 ts0 ++
        (generate_content outcome delta max_retries t0 ts0).events.map
          Dispatch.time ∧
    (∀ e, (generate_content outcome delta max_retries t0 ts0).events.head? =
        some e → e.windowBefore ≤ (purgeWindow t0 ts0).length) ∧
    ((purgeWindow t0 ts0).length < max_rpm →
      ∀ e, (generate_content outcome delta max_retries t0 ts0).events.head? =
        some e → e.windowBefore < max_rpm) ∧
    (max_rpm ≤ (purgeWindow t0 ts0).length →
      ∀ oldest, (purgeWindow t0 ts0).head? = some oldest →
      ∀ e, (generate_content outcome delta max_retries t0 ts0).events.head? =
        some e → oldest + 60 ≤ e.time) := by
  obtain ⟨hfst, hle, hold⟩ := enforce_rate_limit_spec t0 ts0
  obtain ⟨new, h1, h2, h3⟩ := attemptLoop_events outcome delta max_retries 0
    (enforce_rate_limit t0 ts0).2 (enforce_rate_limit t0 ts0).1 []
  have hgen : generate_content outcome delta max_retries t0 ts0 =
      attemptLoop outcome delta max_retries 0 (enforce_rate_limit t0 ts0).2
        (enforce_rate_limit t0 ts0).1 [] := rfl
  simp only [List.reverse_nil, List.nil_append] at h1
  rw [hgen]
  refine ⟨?_, ?_, ?_, ?_⟩
  · rw [h2, h1, hfst]
  · intro e he
    rw [h1] at he
    have := (h3 e he).2
    rw [this, hfst]
    exact List.length_filter_le _ _
  · intro hlt e he
    rw [h1] at he
    have := (h3 e he).2
    rw [this, hfst]
    exact lt_of_le_of_lt (List.length_filter_le _ _) hlt
  · intro hfull oldest holdest e he
    rw [h1] at he
    have ht := (h3 e he).1
    rw [ht]
    have := hold hfull oldest holdest
    linarith

/-- C9 witness: the amended theorem at the concrete run of the
counterexample; the first attempt dispatches with 14 < 15 in-window
timestamps. -/
theorem generate_content_rate_limit_witness :
    (0 : ℚ) ≤ 0 ∧
    (purgeWindow 55 (List.replicate 14 (50 : ℚ))).length < max_rpm ∧
    (generate_content (fun _ => false) (fun _ => 0) 3 55
      (List.replicate 14 (50 : ℚ))).events.head? =
      some ⟨55, 14⟩ ∧
    (⟨55, 14⟩ : Dispatch).windowBefore < max_rpm :=
  ⟨le_refl 0, by with_unfolding_all decide, by with_unfolding_all decide,
    (generate_content_rate_limit (fun _ => false) (fun _ => 0) 3 55
      (List.replicate 14 (50 : ℚ)) (le_refl 0)).2.2.1
      (by with_unfolding_all decide) ⟨55, 14⟩
      (by with_unfolding_all decide)⟩

/-! ## C5 — entity ids -/

/-- Validation of the SHA-256 embedding against the FIPS 180-4 test
vectors for the empty message and `"abc"`. -/
theorem sha256_nist_vectors :
    hexdigest (sha256Bytes (encodeUtf8 "".toList)) =
      "e3b0c44298fc1c149afbf4c8996fb92427ae41e4649b934ca495991b7852b855".toList ∧
    hexdigest (sha256Bytes (encodeUtf8 "abc".toList)) =
      "ba7816bf8f01cfea414140de5dae2223b00361a396177a9cb410ff61f20015ad".toList := by
  decide

/-- C5: every `ResolvedEntity` produced by `create_resolved_entities`
has `entity_id` equal to the first 16 hex characters of the SHA-256
digest of its lowercased `canonical_name`, and consequently any two
produced entities (from any two runs) with the same canonical name have
the same `entity_id`. -/
theorem resolved_entity_id_sha16
    (clusters : List (List Char × List (List Char)))
    (scores : List (List Char × ℚ))
    (sources : List (List Char × List (List Char))) (now : ℚ) (i : Nat)
    (h : i < (create_resolved_entities clusters scores sources now).length) :
    ((create_resolved_entities clusters scores sources now).get
        ⟨i, h⟩).entity_id =
      (hexdigest (sha256Bytes (encodeUtf8
        (((create_resolved_entities clusters scores sources now).get
          ⟨i, h⟩).canonical_name.map Char.toLower)))).take 16 ∧
    ∀ (clusters' : List (List Char × List (List Char)))
      (scores' : List (List Char × ℚ))
      (sources' : List (List Char × List (List Char))) (now' : ℚ) (j : Nat)
      (h' : j < (create_resolved_entities clusters' scores' sources' now').length),
      ((create_resolved_entities clusters scores sources now).get
          ⟨i, h⟩).canonical_name =
        ((create_resolved_entities clusters' scores' sources' now').get
          ⟨j, h'⟩).canonical_name →
      ((create_resolved_entities clusters scores sources now).get
          ⟨i, h⟩).entity_id =
        ((create_resolved_entities clusters' scores' sources' now').get
          ⟨j, h'⟩).entity_id := by
  have key : ∀ (cl : List (List Char × List (List Char)))
      (sc : List (List Char × ℚ)) (so : List (List Char × List (List Char)))
      (n : ℚ) (k : Nat) (hk : k < (create_resolved_entities cl sc so n).length),
      ((create_resolved_entities cl sc so n).get ⟨k, hk⟩).entity_id =
        create_entity_id
          (((create_resolved_entities cl sc so n).get ⟨k, hk⟩).canonical_name) := by
    intro cl sc so n k hk
    have hk' : k < cl.length := by
      simpa [create_resolved_entities] using hk
    simp [create_resolved_entities, List.getElem_map, mkResolvedEntity]
  constructor
  · exact key clusters scores sources now i h
  · intro clusters' scores' sources' now' j h' hcanon
    rw [key clusters scores sources now i h,
      key clusters' scores' sources' now' j h', hcanon]

/-- C5 witness: the theorem at the singleton cluster `{"Acme"}`. -/
theorem resolved_entity_id_sha16_witness :
    ∃ h : 0 < (create_resolved_entities [("Acme".toList, ["Acme".toList])]
        [] [] 0).length,
      ((create_resolved_entities [("Acme".toList, ["Acme".toList])] [] []
          0).get ⟨0, h⟩).entity_id =
        (hexdigest (sha256Bytes (encodeUtf8
          (((create_resolved_entities [("Acme".toList, ["Acme".toList])] [] []
            0).get ⟨0, h⟩).canonical_name.map Char.toLower)))).take 16 := by
  have h0 : 0 < (create_resolved_entities [("Acme".toList, ["Acme".toList])]
      [] [] 0).length := by
    simp [create_resolved_entities]
  exact ⟨h0, (resolved_entity_id_sha16 [("Acme".toList, ["Acme".toList])]
    [] [] 0 0 h0).1⟩

/-! ## C2 — normalization idempotence -/

theorem toNat_ofNat_valid (n : Nat) (h : n.isValidChar) :
    (Char.ofNat n).toNat = n := by
  simp [Char.ofNat, h, Char.ofNatAux, Char.toNat, UInt32.toNat,
    BitVec.toNat_ofNatLt]

theorem toLower_eq (c : Char) :
    c.toLower = if c.toNat ≥ 65 ∧ c.toNat ≤ 90 then Char.ofNat (c.toNat + 32)
      else c := rfl

theorem toLower_toLower (c : Char) : c.toLower.toLower = c.toLower := by
  by_cases h : c.toNat ≥ 65 ∧ c.toNat ≤ 90
  · have hv : Nat.isValidChar (c.toNat + 32) := Or.inl (by omega)
    have ht := toNat_ofNat_valid _ hv
    rw [toLower_eq c, if_pos h, toLower_eq, ht, if_neg (by omega)]
  · rw [toLower_eq c, if_neg h, toLower_eq c, if_neg h]

/-- Every word produced by `wordsAcc` is non-empty, whitespace-free
(when the accumulator is), and drawn from the accumulator or the
input. -/
theorem mem_wordsAcc : ∀ (s cur w : List Char), w ∈ wordsAcc cur s →
    (∀ c ∈ cur, c.isWhitespace = false) →
    w ≠ [] ∧ ∀ c ∈ w, c.isWhitespace = false ∧ (c ∈ cur ∨ c ∈ s) := by
  intro s
  induction s with
  | nil =>
    intro cur w hw hcur
    match cur, hw with
    | c :: cur', hw =>
      have : w = (c :: cur').reverse := by
        simpa [wordsAcc] using hw
      subst this
      refine ⟨by simp, ?_⟩
      intro d hd
      rw [List.mem_reverse] at hd
      exact ⟨hcur d hd, Or.inl hd⟩
  | cons c cs ih =>
    intro cur w hw hcur
    by_cases hws : c.isWhitespace
    · by_cases hce : cur.isEmpty
      · rw [show wordsAcc cur (c :: cs) = wordsAcc [] cs by
          simp [wordsAcc, hws, hce]] at hw
        obtain ⟨h1, h2⟩ := ih [] w hw (by simp)
        refine ⟨h1, fun d hd => ⟨(h2 d hd).1, ?_⟩⟩
        rcases (h2 d hd).2 with hin | hin
        · simp at hin
        · exact Or.inr (List.mem_cons_of_mem c hin)
      · rw [show wordsAcc cur (c :: cs) = cur.reverse :: wordsAcc [] cs by
          simp [wordsAcc, hws, hce]] at hw
        rcases List.mem_cons.mp hw with rfl | hw
        · refine ⟨by simpa using (by simpa [List.isEmpty_iff] using hce), ?_⟩
          intro d hd
          rw [List.mem_reverse] at hd
          exact ⟨hcur d hd, Or.inl hd⟩
        · obtain ⟨h1, h2⟩ := ih [] w hw (by simp)
          refine ⟨h1, fun d hd => ⟨(h2 d hd).1, ?_⟩⟩
          rcases (h2 d hd).2 with hin | hin
          · simp at hin
          · exact Or.inr (List.mem_cons_of_mem c hin)
    · rw [show wordsAcc cur (c :: cs) = wordsAcc (c :: cur) cs by
        simp [wordsAcc, hws]] at hw
      obtain ⟨h1, h2⟩ := ih (c :: cur) w hw (by
        intro d hd
        rcases List.mem_cons.mp hd with rfl | hd
        · simpa using hws
        · exact hcur d hd)
      refine ⟨h1, fun d hd => ⟨(h2 d hd).1, ?_⟩⟩
      rcases (h2 d hd).2 with hin | hin
      · rcases List.mem_cons.mp hin with rfl | hin
        · exact Or.inr (List.mem_cons_self d cs)
        · exact Or.inl hin
      · exact Or.inr (List.mem_cons_of_mem c hin)

/-- Every token of `words s` is non-empty, whitespace-free and made of
characters of `s`. -/
theorem mem_words (s w : List Char) (hw : w ∈ words s) :
    w ≠ [] ∧ ∀ c ∈ w, c.isWhitespace = false ∧ c ∈ s := by
  obtain ⟨h1, h2⟩ := mem_wordsAcc s [] w hw (by simp)
  refine ⟨h1, fun c hc => ⟨(h2 c hc).1, ?_⟩⟩
  rcases (h2 c hc).2 with hin | hin
  · simp at hin
  · exact hin

/-- Consuming a whitespace-free block shifts it into the accumulator. -/
theorem wordsAcc_append (w : List Char)
    (hw : ∀ c ∈ w, c.isWhitespace = false) :
    ∀ (cur s : List Char), wordsAcc cur (w ++ s) = wordsAcc (w.reverse ++ cur) s := by
  induction w with
  | nil => intro cur s; simp
  | cons c w' ih =>
    intro cur s
    have hc : c.isWhitespace = false := hw c (List.mem_cons_self c w')
    rw [List.cons_append,
      show wordsAcc cur (c :: (w' ++ s)) = wordsAcc (c :: cur) (w' ++ s) by
        simp [wordsAcc, hc],
      ih (fun d hd => hw d (List.mem_cons_of_mem c hd)) (c :: cur) s]
    simp

/-- Splitting the space-joined list of good tokens recovers the
tokens. -/
theorem words_unwords : ∀ (L : List (List Char)),
    (∀ w ∈ L, w ≠ [] ∧ ∀ c ∈ w, c.isWhitespace = false) →
    words (unwords L) = L := by
  intro L
  induction L with
  | nil => intro _; rfl
  | cons w rest ih =>
    intro hL
    have hw := hL w (List.mem_cons_self w rest)
    match rest with
    | [] =>
      show words (unwords [w]) = [w]
      have : words (unwords [w]) = wordsAcc [] (w ++ []) := by
        simp [words, unwords]
      rw [this, wordsAcc_append w hw.2 [] []]
      have hne : w.reverse.isEmpty = false := by
        simp [List.isEmpty_iff, hw.1]
      simp [wordsAcc, hne]
    | v :: rest' =>
      show words (w ++ ' ' :: unwords (v :: rest')) = w :: v :: rest'
      rw [show words (w ++ ' ' :: unwords (v :: rest')) =
        wordsAcc [] (w ++ ' ' :: unwords (v :: rest')) from rfl,
        wordsAcc_append w hw.2 [] (' ' :: unwords (v :: rest'))]
      have hne : w.reverse.isEmpty = false := by
        simp [List.isEmpty_iff, hw.1]
      have hsp : (' ' : Char).isWhitespace = true := by decide
      rw [show wordsAcc (w.reverse ++ []) (' ' :: unwords (v :: rest')) =
        w.reverse.reverse :: wordsAcc [] (unwords (v :: rest')) by
          simp [wordsAcc, hsp, hne]]
      rw [List.reverse_reverse]
      exact congrArg (w :: ·) (ih (fun u hu => hL u (List.mem_cons_of_mem w hu)))

theorem map_eq_self_of {α : Type} (f : α → α) (l : List α)
    (h : ∀ c ∈ l, f c = c) : l.map f = l := by
  induction l with
  | nil => rfl
  | cons a t ih =>
    rw [List.map_cons, h a (List.mem_cons_self a t),
      ih (fun c hc => h c (List.mem_cons_of_mem a hc))]

theorem head?_append_left {α : Type} (l l' : List α) (h : l ≠ []) :
    (l ++ l').head? = l.head? := by
  cases l with
  | nil => exact absurd rfl h
  | cons a t => rfl

theorem mem_of_head?_eq {α : Type} {l : List α} {a : α}
    (h : l.head? = some a) : a ∈ l := by
  cases l with
  | nil => simp at h
  | cons b t =>
    simp only [List.head?_cons, Option.some.injEq] at h
    rw [← h]
    exact List.mem_cons_self b t

theorem mem_of_getLast?_eq {α : Type} {l : List α} {a : α}
    (h : l.getLast? = some a) : a ∈ l := by
  have hx : a ∈ l.getLast? := by simp [Option.mem_def, h]
  obtain ⟨hne, heq⟩ := List.mem_getLast?_eq_getLast hx
  rw [heq]
  exact List.getLast_mem hne

/-- A space-joined list of good tokens neither starts nor ends with
whitespace. -/
theorem unwords_good (L : List (List Char))
    (hL : ∀ w ∈ L, w ≠ [] ∧ ∀ c ∈ w, c.isWhitespace = false) :
    (∀ c, (unwords L).head? = some c → c.isWhitespace = false) ∧
    (∀ c, (unwords L).getLast? = some c → c.isWhitespace = false) := by
  induction L with
  | nil =>
    constructor <;> intro c hc <;> simp [unwords] at hc
  | cons w rest ih =>
    have hw := hL w (List.mem_cons_self w rest)
    match rest with
    | [] =>
      constructor
      · intro c hc
        exact hw.2 c (mem_of_head?_eq hc)
      · intro c hc
        exact hw.2 c (mem_of_getLast?_eq hc)
    | v :: rest' =>
      have hrest := ih (fun u hu => hL u (List.mem_cons_of_mem w hu))
      have hrne : unwords (v :: rest') ≠ [] := by
        have hv := hL v (List.mem_cons_of_mem w (List.mem_cons_self v rest'))
        match rest' with
        | [] => exact hv.1
        | u :: rest'' => simp [unwords]
      constructor
      · intro c hc
        rw [show unwords (w :: v :: rest') = w ++ ' ' :: unwords (v :: rest')
            from rfl,
          head?_append_left w _ hw.1] at hc
        exact hw.2 c (mem_of_head?_eq hc)
      · intro c hc
        rw [show unwords (w :: v :: rest') = w ++ ' ' :: unwords (v :: rest')
            from rfl,
          List.getLast?_append_of_ne_nil w (by simp)] at hc
        match hu : unwords (v :: rest'), hrne with
        | u0 :: urest, _ =>
          rw [hu, List.getLast?_cons_cons] at hc
          exact hrest.2 c (by rw [hu]; exact hc)

/-- `strip()` is the identity on strings with no whitespace at either
end. -/
theorem pystrip_eq_self (s : List Char)
    (h1 : ∀ c, s.head? = some c → c.isWhitespace = false)
    (h2 : ∀ c, s.getLast? = some c → c.isWhitespace = false) :
    pystrip s = s := by
  unfold pystrip
  have hd : s.dropWhile Char.isWhitespace = s := by
    cases s with
    | nil => rfl
    | cons c t =>
      rw [List.dropWhile_cons]
      simp [h1 c rfl]
  rw [hd]
  have hr : s.reverse.dropWhile Char.isWhitespace = s.reverse := by
    cases hrev : s.reverse with
    | nil => rfl
    | cons c t =>
      rw [List.dropWhile_cons]
      have hlast : s.getLast? = some c := by
        rw [← List.head?_reverse, hrev]
        rfl
      simp [h2 c hlast]
  rw [hr, List.reverse_reverse]

theorem pystrip_length_le (s : List Char) : (pystrip s).length ≤ s.length := by
  unfold pystrip
  rw [List.length_reverse]
  calc ((s.dropWhile Char.isWhitespace).reverse.dropWhile
        Char.isWhitespace).length
      ≤ (s.dropWhile Char.isWhitespace).reverse.length :=
        (List.dropWhile_sublist _).length_le
    _ = (s.dropWhile Char.isWhitespace).length := List.length_reverse _
    _ ≤ s.length := (List.dropWhile_sublist _).length_le

/-- Characters of a space-join are separators or token characters. -/
theorem mem_unwords (L : List (List Char)) (c : Char) (hc : c ∈ unwords L) :
    c = ' ' ∨ ∃ w ∈ L, c ∈ w := by
  induction L with
  | nil => simp [unwords] at hc
  | cons w rest ih =>
    match rest with
    | [] => exact Or.inr ⟨w, List.mem_cons_self w [], hc⟩
    | v :: rest' =>
      rw [show unwords (w :: v :: rest') = w ++ ' ' :: unwords (v :: rest')
          from rfl, List.mem_append] at hc
      rcases hc with hc | hc
      · exact Or.inr ⟨w, List.mem_cons_self _ _, hc⟩
      · rcases List.mem_cons.mp hc with rfl | hc
        · exact Or.inl rfl
        · rcases ih hc with h | ⟨u, hu, hcu⟩
          · exact Or.inl h
          · exact Or.inr ⟨u, List.mem_cons_of_mem w hu, hcu⟩

theorem replaceAmpSlash_eq_self (s : List Char)
    (h : ∀ c ∈ s, c ≠ '&' ∧ c ≠ '/') : replaceAmpSlash s = s := by
  induction s with
  | nil => rfl
  | cons c t ih =>
    have hc := h c (List.mem_cons_self c t)
    simp only [replaceAmpSlash, hc.1, hc.2, if_false,
      ih (fun d hd => h d (List.mem_cons_of_mem c hd))]

theorem mem_replaceAmpSlash (s : List Char) (c : Char)
    (hc : c ∈ replaceAmpSlash s) :
    c ∈ s ∨ c = ' ' ∨ c = 'a' ∨ c = 'n' ∨ c = 'd' := by
  induction s with
  | nil => simp [replaceAmpSlash] at hc
  | cons b t ih =>
    by_cases hb : b = '&'
    · subst hb
      rw [show replaceAmpSlash ('&' :: t) =
          ' ' :: 'a' :: 'n' :: 'd' :: ' ' :: replaceAmpSlash t by
        simp [replaceAmpSlash]] at hc
      simp only [List.mem_cons] at hc
      rcases hc with rfl | rfl | rfl | rfl | rfl | hc
      · exact Or.inr (Or.inl rfl)
      · exact Or.inr (Or.inr (Or.inl rfl))
      · exact Or.inr (Or.inr (Or.inr (Or.inl rfl)))
      · exact Or.inr (Or.inr (Or.inr (Or.inr rfl)))
      · exact Or.inr (Or.inl rfl)
      · rcases ih hc with h | h
        · exact Or.inl (List.mem_cons_of_mem _ h)
        · exact Or.inr h
    · by_cases hs : b = '/'
      · subst hs
        rw [show replaceAmpSlash ('/' :: t) = ' ' :: replaceAmpSlash t by
          simp [replaceAmpSlash, hb]] at hc
        rcases List.mem_cons.mp hc with rfl | hc
        · exact Or.inr (Or.inl rfl)
        · rcases ih hc with h | h
          · exact Or.inl (List.mem_cons_of_mem _ h)
          · exact Or.inr h
      · rw [show replaceAmpSlash (b :: t) = b :: replaceAmpSlash t by
          simp [replaceAmpSlash, hb, hs]] at hc
        rcases List.mem_cons.mp hc with rfl | hc
        · exact Or.inl (List.mem_cons_self c t)
        · rcases ih hc with h | h
          · exact Or.inl (List.mem_cons_of_mem _ h)
          · exact Or.inr h

theorem dedupFirstAux_sublist :
    ∀ (L seen : List (List Char)), (dedupFirstAux seen L).Sublist L := by
  intro L
  induction L with
  | nil => intro seen; exact List.Sublist.refl []
  | cons t ts ih =>
    intro seen
    by_cases ht : t ∈ seen
    · simp only [dedupFirstAux, ht, if_true]
      exact (ih seen).cons t
    · simp only [dedupFirstAux, ht, if_false]
      exact (ih (t :: seen)).cons₂ t

theorem dedupFirstAux_nodup :
    ∀ (L seen : List (List Char)), (dedupFirstAux seen L).Nodup ∧
      ∀ w ∈ dedupFirstAux seen L, w ∉ seen := by
  intro L
  induction L with
  | nil => intro seen; exact ⟨List.nodup_nil, by simp [dedupFirstAux]⟩
  | cons t ts ih =>
    intro seen
    by_cases ht : t ∈ seen
    · simp only [dedupFirstAux, ht, if_true]
      exact ih seen
    · simp only [dedupFirstAux, ht, if_false]
      obtain ⟨hnd, hout⟩ := ih (t :: seen)
      refine ⟨List.nodup_cons.mpr ⟨?_, hnd⟩, ?_⟩
      · intro hmem
        exact hout t hmem (List.mem_cons_self t seen)
      · intro w hw
        rcases List.mem_cons.mp hw with rfl | hw
        · exact ht
        · exact fun hws => hout w hw (List.mem_cons_of_mem t hws)

theorem dedupFirstAux_eq_self :
    ∀ (L seen : List (List Char)), L.Nodup → (∀ w ∈ L, w ∉ seen) →
      dedupFirstAux seen L = L := by
  intro L
  induction L with
  | nil => intro seen _ _; rfl
  | cons t ts ih =>
    intro seen hnd hout
    have ht : t ∉ seen := hout t (List.mem_cons_self t ts)
    simp only [dedupFirstAux, ht, if_false]
    rw [ih (t :: seen) (List.nodup_cons.mp hnd).2]
    intro w hw
    rw [List.mem_cons]
    rintro (rfl | hws)
    · exact (List.nodup_cons.mp hnd).1 hw
    · exact hout w (List.mem_cons_of_mem t hw) hws

theorem dropLastLegalSuffix_spec (L : List (List Char)) :
    (dropLastLegalSuffix L).Sublist L ∧
    (dropLastLegalSuffix L = L ∨ (dropLastLegalSuffix L).length < L.length) := by
  unfold dropLastLegalSuffix
  cases hL : L.getLast? with
  | none => exact ⟨List.Sublist.refl L, Or.inl rfl⟩
  | some t =>
    dsimp only
    have hne : L ≠ [] := by
      intro h; subst h; simp at hL
    split_ifs with h
    · refine ⟨List.dropLast_sublist L, Or.inr ?_⟩
      rw [List.length_dropLast]
      have := List.length_pos.mpr hne
      omega
    · exact ⟨List.Sublist.refl L, Or.inl rfl⟩

theorem dropLastLegalPair_spec (L : List (List Char)) :
    (dropLastLegalPair L).Sublist L ∧
    (dropLastLegalPair L = L ∨ (dropLastLegalPair L).length < L.length) := by
  unfold dropLastLegalPair
  cases hL1 : L.getLast? with
  | none => exact ⟨List.Sublist.refl L, Or.inl rfl⟩
  | some l1 =>
    cases hL2 : L.dropLast.getLast? with
    | none => exact ⟨List.Sublist.refl L, Or.inl rfl⟩
    | some l2 =>
      have hne : L ≠ [] := by
        intro h; subst h; simp at hL1
      have hne2 : L.dropLast ≠ [] := by
        intro h; rw [h] at hL2; simp at hL2
      dsimp only
      split_ifs with h
      · refine ⟨(List.dropLast_sublist _).trans (List.dropLast_sublist L),
          Or.inr ?_⟩
        rw [List.length_dropLast, List.length_dropLast]
        have h1 := List.length_pos.mpr hne
        have h2 := List.length_pos.mpr hne2
        rw [List.length_dropLast] at h2
        omega
      · exact ⟨List.Sublist.refl L, Or.inl rfl⟩

theorem dropTrailingStopword_spec (L : List (List Char)) :
    (dropTrailingStopword L).Sublist L ∧
    (dropTrailingStopword L = L ∨ (dropTrailingStopword L).length < L.length) := by
  unfold dropTrailingStopword
  cases hL : L.getLast? with
  | none => exact ⟨List.Sublist.refl L, Or.inl rfl⟩
  | some t =>
    dsimp only
    have hne : L ≠ [] := by
      intro h; subst h; simp at hL
    split_ifs with h
    · refine ⟨List.dropLast_sublist L, Or.inr ?_⟩
      rw [List.length_dropLast]
      have := List.length_pos.mpr hne
      omega
    · exact ⟨List.Sublist.refl L, Or.inl rfl⟩

theorem trimTokens_sublist (L : List (List Char)) :
    (trimTokens L).Sublist L :=
  ((dropTrailingStopword_spec _).1.trans
    (dropLastLegalPair_spec _).1).trans (dropLastLegalSuffix_spec L).1

theorem trimTokens_length_lt (L : List (List Char)) (h : trimTokens L ≠ L) :
    (trimTokens L).length < L.length := by
  have hA := dropLastLegalSuffix_spec L
  have hB := dropLastLegalPair_spec (dropLastLegalSuffix L)
  have hC := dropTrailingStopword_spec
    (dropLastLegalPair (dropLastLegalSuffix L))
  have hCle : (trimTokens L).length ≤
      (dropLastLegalPair (dropLastLegalSuffix L)).length := hC.1.length_le
  have hBle : (dropLastLegalPair (dropLastLegalSuffix L)).length ≤
      (dropLastLegalSuffix L).length := hB.1.length_le
  have hAle : (dropLastLegalSuffix L).length ≤ L.length := hA.1.length_le
  rcases hA.2 with hA2 | hA2
  · rcases hB.2 with hB2 | hB2
    · rcases hC.2 with hC2 | hC2
      · exfalso
        apply h
        unfold trimTokens removeLegalSuffixes
        rw [hC2, hB2, hA2]
      · unfold trimTokens removeLegalSuffixes
        calc (dropTrailingStopword (dropLastLegalPair (dropLastLegalSuffix L))).length
            < (dropLastLegalPair (dropLastLegalSuffix L)).length := hC2
          _ ≤ L.length := by rw [hB2, hA2]
    · exact lt_of_le_of_lt hCle (lt_of_lt_of_le hB2 (by rw [hA2]))
  · exact lt_of_le_of_lt (le_trans hCle hBle) hA2

theorem unwords_cons_length (a : List Char) (l : List (List Char)) :
    (unwords (a :: l)).length =
      if l = [] then a.length else a.length + 1 + (unwords l).length := by
  match l with
  | [] => simp [unwords]
  | b :: l' =>
    rw [if_neg (by simp)]
    show (a ++ ' ' :: unwords (b :: l')).length = _
    rw [List.length_append, List.length_cons]
    omega

theorem unwords_length_le {L' L : List (List Char)} (h : L'.Sublist L) :
    (unwords L').length ≤ (unwords L).length := by
  induction h with
  | slnil => exact le_refl _
  | @cons l₁ l₂ a hsub ih =>
    rw [unwords_cons_length]
    split_ifs with h2
    · rw [h2] at ih
      simp only [unwords, List.length_nil] at ih
      omega
    · omega
  | @cons₂ l₁ l₂ a hsub ih =>
    rw [unwords_cons_length, unwords_cons_length]
    split_ifs with h1 h2 h3
    · exact le_refl _
    · omega
    · exfalso
      rw [h3] at hsub
      exact h1 (List.sublist_nil.mp hsub)
    · omega

theorem unwords_length_lt {L' L : List (List Char)} (h : L'.Sublist L)
    (hne : L' ≠ L) (hgood : ∀ w ∈ L, w ≠ []) :
    (unwords L').length < (unwords L).length := by
  induction h with
  | slnil => exact absurd rfl hne
  | @cons l₁ l₂ a hsub ih =>
    have halen : 0 < a.length :=
      List.length_pos.mpr (hgood a (List.mem_cons_self a l₂))
    rw [unwords_cons_length]
    split_ifs with h2
    · rw [h2] at hsub
      rw [List.sublist_nil.mp hsub]
      simpa [unwords] using halen
    · have := unwords_length_le hsub
      omega
  | @cons₂ l₁ l₂ a hsub ih =>
    have hne' : l₁ ≠ l₂ := by
      intro hh
      exact hne (by rw [hh])
    have ihs := ih hne' (fun w hw => hgood w (List.mem_cons_of_mem a hw))
    rw [unwords_cons_length, unwords_cons_length]
    split_ifs with h1 h2 h3
    · exact absurd (by rw [h1, h2]) hne
    · omega
    · exfalso
      rw [h3] at hsub
      exact h1 (List.sublist_nil.mp hsub)
    · omega

/-- The token list of a normalized name is good: non-empty,
whitespace-free tokens. -/
theorem tokens_good (x : List Char) :
    ∀ w ∈ dedupFirst (trimTokens (words (cleanChars x))),
      w ≠ [] ∧ ∀ c ∈ w, c.isWhitespace = false := by
  intro w hw
  have hw1 : w ∈ words (cleanChars x) :=
    (trimTokens_sublist _).subset ((dedupFirstAux_sublist _ []).subset hw)
  have hmw := mem_words _ w hw1
  exact ⟨hmw.1, fun c hc => (hmw.2 c hc).1⟩

/-- `normalize` equals the space-join of its token list: the trailing
`strip()` never fires. -/
theorem normalize_eq_unwords (x : List Char) :
    normalize x = unwords (dedupFirst (trimTokens (words (cleanChars x)))) := by
  by_cases hx : x = []
  · subst hx; rfl
  · unfold normalize
    rw [if_neg hx]
    obtain ⟨hh, hl⟩ := unwords_good _ (tokens_good x)
    exact pystrip_eq_self _ hh hl

/-- Every character of a normalized name is lowercase-fixed, is not an
ampersand or slash, and survives the punctuation filter. -/
theorem normalize_char_fixed (x : List Char) (c : Char)
    (hc : c ∈ normalize x) :
    c.toLower = c ∧ c ≠ '&' ∧ c ≠ '/' ∧ keepChar c = true := by
  rw [normalize_eq_unwords] at hc
  rcases mem_unwords _ c hc with rfl | ⟨w, hw, hcw⟩
  · exact ⟨by decide, by decide, by decide, by decide⟩
  · have hw1 : w ∈ words (cleanChars x) :=
      (trimTokens_sublist _).subset ((dedupFirstAux_sublist _ []).subset hw)
    have hmw := mem_words _ w hw1
    have hws : c.isWhitespace = false := (hmw.2 c hcw).1
    have hcx : c ∈ cleanChars x := (hmw.2 c hcw).2
    unfold cleanChars at hcx
    have hkeep : keepChar c = true := by
      have := List.mem_filter.mp hcx
      simpa using this.2
    have hrep : c ∈ replaceAmpSlash ((nfc x).map Char.toLower) :=
      (List.mem_filter.mp hcx).1
    have hword : isWordChar c = true := by
      cases hoc : isWordChar c with
      | true => rfl
      | false =>
        exfalso
        unfold keepChar at hkeep
        rw [hoc, hws] at hkeep
        simp at hkeep
    have hamp : c ≠ '&' := by
      rintro rfl
      exact absurd hword (by decide)
    have hsl : c ≠ '/' := by
      rintro rfl
      exact absurd hword (by decide)
    have hlow : c.toLower = c := by
      rcases mem_replaceAmpSlash _ c hrep with h | h | h | h | h
      · rw [List.mem_map] at h
        obtain ⟨d, -, rfl⟩ := h
        exact toLower_toLower d
      all_goals (subst h; decide)
    exact ⟨hlow, hamp, hsl, hkeep⟩

/-- A normalized name passes the character-cleaning stages unchanged. -/
theorem cleanChars_normalize (x : List Char) :
    cleanChars (normalize x) = normalize x := by
  unfold cleanChars
  rw [show nfc (normalize x) = normalize x from rfl,
    map_eq_self_of _ _ (fun c hc => (normalize_char_fixed x c hc).1),
    replaceAmpSlash_eq_self _ (fun c hc =>
      ⟨(normalize_char_fixed x c hc).2.1, (normalize_char_fixed x c hc).2.2.1⟩)]
  exact List.filter_eq_self.mpr
    (fun c hc => by simpa using (normalize_char_fixed x c hc).2.2.2)

/-- C2 counterexample: `"Acme Ltd Inc"` normalizes to `"acme ltd"` in
one pass (only the trailing legal suffix `inc` is removed) and to
`"acme"` in a second pass (the now-trailing `ltd` is removed), so
`normalize (normalize x) ≠ normalize x`. -/
theorem normalize_not_idempotent :
    normalize "Acme Ltd Inc".toList = "acme ltd".toList ∧
    normalize (normalize "Acme Ltd Inc".toList) = "acme".toList ∧
    normalize (normalize "Acme Ltd Inc".toList) ≠
      normalize "Acme Ltd Inc".toList := by decide

/-- C2 (amended): one pass of `normalize` is idempotent exactly on the
inputs whose normalized token list is already a fixed point of the
trailing legal-suffix / corporate-stopword trimming; each pass removes
at most one trailing suffix layer, so names with stacked suffixes (such
as `"Acme Ltd Inc"`) keep shrinking on repeated application instead of
stabilising after one pass. -/
theorem normalize_idem_iff (x : List Char) :
    normalize (normalize x) = normalize x ↔
      trimTokens (words (normalize x)) = words (normalize x) := by
  have hT := normalize_eq_unwords x
  set T := dedupFirst (trimTokens (words (cleanChars x))) with hTdef
  have hgood := tokens_good x
  rw [← hTdef] at hgood
  have hwy : words (normalize x) = T := by
    rw [hT]
    exact words_unwords T hgood
  have hTnd : T.Nodup := by
    rw [hTdef]
    exact (dedupFirstAux_nodup _ []).1
  constructor
  · intro hidem
    rw [hwy]
    by_contra hne
    have hlt := trimTokens_length_lt T hne
    have hylen : (normalize (normalize x)).length < (normalize x).length := by
      rw [normalize_eq_unwords (normalize x), cleanChars_normalize, hwy, hT]
      have hsub : (dedupFirst (trimTokens T)).Sublist T :=
        (dedupFirstAux_sublist _ []).trans (trimTokens_sublist T)
      have hlen : (dedupFirst (trimTokens T)).length < T.length :=
        lt_of_le_of_lt (dedupFirstAux_sublist _ []).length_le hlt
      have hneq : dedupFirst (trimTokens T) ≠ T := by
        intro he
        rw [he] at hlen
        exact lt_irrefl _ hlen
      exact unwords_length_lt hsub hneq (fun w hw => (hgood w hw).1)
    rw [hidem] at hylen
    exact lt_irrefl _ hylen
  · intro htrim
    rw [hwy] at htrim
    have hded : dedupFirst T = T := dedupFirstAux_eq_self T [] hTnd (by simp)
    rw [normalize_eq_unwords (normalize x), cleanChars_normalize, hwy, htrim,
      hded, ← hT]

/-- C2 witness: the amended characterization applied to
`"Palo Alto Networks Inc"`, whose one-pass normal form
`"palo alto networks"` is trim-stable, so a second pass fixes it. -/
theorem normalize_idem_iff_witness :
    trimTokens (words (normalize "Palo Alto Networks Inc".toList)) =
      words (normalize "Palo Alto Networks Inc".toList) ∧
    normalize (normalize "Palo Alto Networks Inc".toList) =
      normalize "Palo Alto Networks Inc".toList :=
  ⟨by decide, (normalize_idem_iff "Palo Alto Networks Inc".toList).mpr
    (by decide)⟩

/-! ## C6 — composite score on empty normalized forms -/

theorem extract_tokens_of_norm_nil (n : List Char) (hn : normalize n = []) :
    extract_tokens n = [] := by
  unfold extract_tokens
  rw [hn]
  rfl

theorem extract_tokens_of_norm_ne_nil (n : List Char)
    (hn : normalize n ≠ []) : extract_tokens n ≠ [] := by
  unfold extract_tokens
  have hw : words (normalize n) =
      dedupFirst (trimTokens (words (cleanChars n))) := by
    rw [normalize_eq_unwords n]
    exact words_unwords _ (tokens_good n)
  rw [hw]
  have hTne : dedupFirst (trimTokens (words (cleanChars n))) ≠ [] := by
    intro h
    apply hn
    rw [normalize_eq_unwords n, h]
    rfl
  match hT : dedupFirst (trimTokens (words (cleanChars n))), hTne with
  | t :: ts, _ =>
    show dedupFirstAux [] (t :: ts) ≠ []
    simp [dedupFirstAux]

/-- C6 counterexample: for the pair `("", "")` both normalized forms
are empty, yet the composite score is 0.75, not 1.0 — the jaccard, edit
and jaro components are each 1.0 but the acronym component is 0, and
the weights of the first three sum to 0.75. -/
theorem composite_score_both_empty_not_one :
    (composite_score (fun _ _ => 0) (fun _ _ => 0) [] []).1 = 3/4 ∧
    (3/4 : ℚ) ≠ 1 := by
  constructor
  · with_unfolding_all decide
  · norm_num

/-- C6 (amended): when both normalized forms are empty the jaccard,
edit and jaro components are each 1.0, so the composite equals
`0.75 + 0.25·acronym` (0.75 for the pair `("", "")`, whose acronym
component is 0) — not 1.0 in general; when exactly one normalized form
is empty those three components are 0.0 and the composite equals
`0.25·acronym`. -/
theorem composite_score_empty_forms (ratio jw : List Char → List Char → ℚ)
    (name1 name2 : List Char) :
    (normalize name1 = [] → normalize name2 = [] →
      (composite_score ratio jw name1 name2).1 =
        3/4 + 1/4 * acronym_score name1 name2) ∧
    (normalize name1 = [] → normalize name2 ≠ [] →
      (composite_score ratio jw name1 name2).1 =
        1/4 * acronym_score name1 name2) ∧
    (normalize name1 ≠ [] → normalize name2 = [] →
      (composite_score ratio jw name1 name2).1 =
        1/4 * acronym_score name1 name2) := by
  have hcomp : (composite_score ratio jw name1 name2).1 =
      WEIGHT_TOKEN_JACCARD *
        token_jaccard (extract_tokens name1) (extract_tokens name2) +
      WEIGHT_EDIT_DISTANCE *
        edit_distance_ratio ratio (normalize name1) (normalize name2) +
      WEIGHT_JARO_WINKLER *
        jaro_winkler jw (normalize name1) (normalize name2) +
      WEIGHT_ACRONYM * acronym_score name1 name2 := rfl
  refine ⟨?_, ?_, ?_⟩
  · intro h1 h2
    rw [hcomp, extract_tokens_of_norm_nil _ h1, extract_tokens_of_norm_nil _ h2,
      h1, h2]
    simp only [token_jaccard, edit_distance_ratio, jaro_winkler, and_self,
      if_true]
    unfold WEIGHT_TOKEN_JACCARD WEIGHT_EDIT_DISTANCE WEIGHT_JARO_WINKLER
      WEIGHT_ACRONYM
    ring
  · intro h1 h2
    have ht1 := extract_tokens_of_norm_nil _ h1
    have ht2 := extract_tokens_of_norm_ne_nil _ h2
    rw [hcomp, ht1, h1]
    simp only [token_jaccard, edit_distance_ratio, jaro_winkler, ht2, h2,
      and_false, false_and, if_false, true_and, and_true, true_or, or_false,
      if_true, eq_self_iff_true]
    unfold WEIGHT_TOKEN_JACCARD WEIGHT_EDIT_DISTANCE WEIGHT_JARO_WINKLER
      WEIGHT_ACRONYM
    ring
  · intro h1 h2
    have ht1 := extract_tokens_of_norm_ne_nil _ h1
    have ht2 := extract_tokens_of_norm_nil _ h2
    rw [hcomp, ht2, h2]
    simp only [token_jaccard, edit_distance_ratio, jaro_winkler, ht1, h1,
      and_false, false_and, if_false, true_and, and_true, true_or, or_true,
      if_true, eq_self_iff_true]
    unfold WEIGHT_TOKEN_JACCARD WEIGHT_EDIT_DISTANCE WEIGHT_JARO_WINKLER
      WEIGHT_ACRONYM
    ring

/-- C6 witness: the amended theorem applied to `("inc", "inc")` — both
normalize to the empty string (the legal suffix is stripped). -/
theorem composite_score_empty_forms_witness :
    normalize "inc".toList = [] ∧
    (composite_score (fun _ _ => 0) (fun _ _ => 0) "inc".toList
      "inc".toList).1 = 3/4 + 1/4 * acronym_score "inc".toList "inc".toList :=
  ⟨by decide,
    (composite_score_empty_forms (fun _ _ => 0) (fun _ _ => 0) "inc".toList
      "inc".toList).1 (by decide) (by decide)⟩

/-! ## UnionFind: association-list and rank groundwork -/

/-- A key is present exactly when lookup succeeds. -/
theorem mem_keys_iff_alookup {α β : Type} [DecidableEq α]
    (l : List (α × β)) (x : α) :
    x ∈ l.map Prod.fst ↔ (alookup l x).isSome := by
  induction l with
  | nil => simp [alookup]
  | cons kv rest ih =>
    obtain ⟨k, v⟩ := kv
    by_cases hx : x = k
    · subst hx; simp [alookup]
    · simp [alookup, hx, ih]

/-- Lookup fails exactly on absent keys. -/
theorem alookup_eq_none_iff {α β : Type} [DecidableEq α]
    (l : List (α × β)) (x : α) :
    alookup l x = none ↔ x ∉ l.map Prod.fst := by
  rw [mem_keys_iff_alookup]
  cases h : alookup l x <;> simp

/-- A successful lookup survives appending on the right. -/
theorem alookup_append_of_some {α β : Type} [DecidableEq α]
    {l : List (α × β)} {x : α} {v : β} (l' : List (α × β))
    (h : alookup l x = some v) : alookup (l ++ l') x = some v := by
  induction l with
  | nil => simp [alookup] at h
  | cons kv rest ih =>
    obtain ⟨k, w⟩ := kv
    by_cases hx : x = k
    · subst hx; simp [alookup] at h ⊢; exact h
    · simp [alookup, hx] at h ⊢; exact ih h

/-- A failed lookup defers to the appended tail. -/
theorem alookup_append_of_none {α β : Type} [DecidableEq α]
    {l : List (α × β)} {x : α} (l' : List (α × β))
    (h : alookup l x = none) : alookup (l ++ l') x = alookup l' x := by
  induction l with
  | nil => simp
  | cons kv rest ih =>
    obtain ⟨k, w⟩ := kv
    by_cases hx : x = k
    · subst hx; simp [alookup] at h
    · simp [alookup, hx] at h ⊢; exact ih h

/-- Updating a key makes it look up to the new value. -/
theorem alookup_aupdate_self {α β : Type} [DecidableEq α]
    (l : List (α × β)) (k : α) (v : β) :
    alookup (aupdate l k v) k = some v := by
  induction l with
  | nil => simp [aupdate, alookup]
  | cons kv rest ih =>
    obtain ⟨k', v'⟩ := kv
    by_cases h : k = k'
    · subst h; simp [aupdate, alookup]
    · simp [aupdate, alookup, h, ih]

/-- Updating one key leaves the others' lookups unchanged. -/
theorem alookup_aupdate_ne {α β : Type} [DecidableEq α]
    (l : List (α × β)) (k : α) (v : β) (x : α) (hx : x ≠ k) :
    alookup (aupdate l k v) x = alookup l x := by
  induction l with
  | nil => simp [aupdate, alookup, hx]
  | cons kv rest ih =>
    obtain ⟨k', v'⟩ := kv
    by_cases h : k = k'
    · subst h; simp [aupdate, alookup, hx]
    · by_cases h2 : x = k'
      · subst h2; simp [aupdate, alookup, h]
      · simp [aupdate, alookup, h, h2, ih]

/-- Updating an existing key keeps the key list (Python dict assignment
to a present key preserves insertion order). -/
theorem aupdate_keys_of_mem {α β : Type} [DecidableEq α]
    (l : List (α × β)) (k : α) (v : β) (hk : k ∈ l.map Prod.fst) :
    (aupdate l k v).map Prod.fst = l.map Prod.fst := by
  induction l with
  | nil => simp at hk
  | cons kv rest ih =>
    obtain ⟨k', v'⟩ := kv
    by_cases h : k = k'
    · subst h; simp [aupdate]
    · have hk2 : k ∈ k' :: rest.map Prod.fst := by
        simpa only [List.map_cons] using hk
      have hk' : k ∈ rest.map Prod.fst := by
        rcases List.mem_cons.mp hk2 with h1 | h1
        · exact absurd h1 h
        · exact h1
      simp [aupdate, h, ih hk']

/-- A looked-up value is among the stored values. -/
theorem alookup_mem_snd {α β : Type} [DecidableEq α]
    (l : List (α × β)) (x : α) (v : β) (h : alookup l x = some v) :
    v ∈ l.map Prod.snd := by
  induction l with
  | nil => simp [alookup] at h
  | cons kv rest ih =>
    obtain ⟨k, w⟩ := kv
    by_cases hx : x = k
    · subst hx; simp [alookup] at h; simp [h]
    · simp [alookup, hx] at h
      simp [ih h]

/-- Every member is bounded by the running maximum. -/
theorem le_foldr_max (l : List Nat) (b : Nat) (hb : b ∈ l) :
    b ≤ l.foldr max 0 := by
  induction l with
  | nil => simp at hb
  | cons a l ih =>
    rcases List.mem_cons.mp hb with h | h
    · subst h; simp [List.foldr_cons]
    · have := ih h
      simp [List.foldr_cons]; omega

/-- Appending a zero rank does not change the running maximum. -/
theorem foldr_max_append_zero (l : List Nat) :
    (l ++ [0]).foldr max 0 = l.foldr max 0 := by
  induction l with
  | nil => simp
  | cons a l ih => simp [List.foldr_cons, ih]

/-- No rank exceeds `maxRank`. -/
theorem rnk_le_maxRank (s : UnionFind) (x : List Char) :
    rnk s x ≤ maxRank s := by
  unfold rnk maxRank
  cases h : alookup s.rank x with
  | none => simp
  | some v => simpa using le_foldr_max _ _ (alookup_mem_snd _ _ _ h)

/-! ## UnionFind: the compression-free root -/

/-- Any two sufficient fuels give the same root: ranks strictly
increase along the chain, so `maxRank` bounds its length. -/
theorem rootFuel_congr (s : UnionFind) (hInv : Inv s) :
    ∀ (f g : Nat) (x : List Char), maxRank s < rnk s x + f →
      maxRank s < rnk s x + g →
      rootFuel f s.parent x = rootFuel g s.parent x := by
  intro f
  induction f with
  | zero =>
    intro g x hf _
    have := rnk_le_maxRank s x
    omega
  | succ f ih =>
    intro g x hf hg
    cases g with
    | zero =>
      have := rnk_le_maxRank s x
      omega
    | succ g =>
      simp only [rootFuel]
      cases hp : alookup s.parent x with
      | none => rfl
      | some px =>
        by_cases hpx : px = x
        · simp [hpx]
        · have hlt := hInv.rankUp x px hp hpx
          simp only [hpx, if_false]
          exact ih g px (by omega) (by omega)

/-- With sufficient fuel the chain ends: either the element is absent
(and is its own root) or the result is a self-parent fixpoint. -/
theorem rootFuel_fix (s : UnionFind) (hInv : Inv s) :
    ∀ (f : Nat) (x : List Char), maxRank s < rnk s x + f →
      (alookup s.parent x = none ∧ rootFuel f s.parent x = x) ∨
      alookup s.parent (rootFuel f s.parent x) =
        some (rootFuel f s.parent x) := by
  intro f
  induction f with
  | zero =>
    intro x h
    have := rnk_le_maxRank s x
    omega
  | succ f ih =>
    intro x h
    simp only [rootFuel]
    cases hp : alookup s.parent x with
    | none => exact Or.inl ⟨rfl, rfl⟩
    | some px =>
      by_cases hpx : px = x
      · subst hpx
        simp only [if_pos rfl]
        exact Or.inr hp
      · have hlt := hInv.rankUp x px hp hpx
        simp only [hpx, if_false]
        rcases ih px (by omega) with ⟨hnone, _⟩ | hfix
        · have hmem := hInv.closed x px hp
          rw [mem_keys_iff_alookup, hnone] at hmem
          simp at hmem
        · exact Or.inr hfix

/-- `root` at the definitional fuel satisfies the fixpoint property. -/
theorem root_fix (s : UnionFind) (hInv : Inv s) (x : List Char) :
    (alookup s.parent x = none ∧ root s x = x) ∨
    alookup s.parent (root s x) = some (root s x) :=
  rootFuel_fix s hInv (maxRank s + 1) x (by omega)

/-- Absent elements are their own root. -/
theorem root_of_not_mem (s : UnionFind) (x : List Char)
    (h : alookup s.parent x = none) : root s x = x := by
  simp [root, rootFuel, h]

/-- Self-parents are their own root. -/
theorem root_of_self_parent (s : UnionFind) (x : List Char)
    (h : alookup s.parent x = some x) : root s x = x := by
  simp [root, rootFuel, h]

/-- Following one parent link preserves the root. -/
theorem root_parent_step (s : UnionFind) (hInv : Inv s) (x px : List Char)
    (hp : alookup s.parent x = some px) : root s x = root s px := by
  by_cases hpx : px = x
  · subst hpx; rfl
  · have hlt := hInv.rankUp x px hp hpx
    have hle := rnk_le_maxRank s x
    have h1 : rootFuel (maxRank s + 1) s.parent x =
        rootFuel (maxRank s) s.parent px := by
      simp only [rootFuel, hp, hpx, if_false]
    unfold root
    rw [h1]
    exact rootFuel_congr s hInv (maxRank s) (maxRank s + 1) px (by omega)
      (by omega)

/-- The root map is idempotent. -/
theorem root_root (s : UnionFind) (hInv : Inv s) (x : List Char) :
    root s (root s x) = root s x := by
  rcases root_fix s hInv x with ⟨_, hr⟩ | hfix
  · rw [hr, hr]
  · exact root_of_self_parent s _ hfix

/-- Rank is monotone along the chain to the root. -/
theorem rnk_le_rnk_rootFuel (s : UnionFind) (hInv : Inv s) :
    ∀ (f : Nat) (x : List Char), maxRank s < rnk s x + f →
      rnk s x ≤ rnk s (rootFuel f s.parent x) := by
  intro f
  induction f with
  | zero =>
    intro x h
    have := rnk_le_maxRank s x
    omega
  | succ f ih =>
    intro x h
    simp only [rootFuel]
    cases hp : alookup s.parent x with
    | none => exact le_refl _
    | some px =>
      by_cases hpx : px = x
      · simp [hpx]
      · have hlt := hInv.rankUp x px hp hpx
        simp only [hpx, if_false]
        exact le_trans (le_of_lt hlt) (ih px (by omega))

/-- Rank is monotone up to the root. -/
theorem rnk_le_root (s : UnionFind) (hInv : Inv s) (x : List Char) :
    rnk s x ≤ rnk s (root s x) :=
  rnk_le_rnk_rootFuel s hInv (maxRank s + 1) x (by omega)

/-- A non-root has strictly smaller rank than its root. -/
theorem rnk_lt_root (s : UnionFind) (hInv : Inv s) (x px : List Char)
    (hp : alookup s.parent x = some px) (hpx : px ≠ x) :
    rnk s x < rnk s (root s x) := by
  have h1 := root_parent_step s hInv x px hp
  have h2 := rnk_le_root s hInv px
  have h3 := hInv.rankUp x px hp hpx
  rw [h1]
  omega

/-- A present element whose root is itself is a self-parent. -/
theorem alookup_root_self (s : UnionFind) (hInv : Inv s) (r : List Char)
    (hmem : r ∈ s.parent.map Prod.fst) (hroot : root s r = r) :
    alookup s.parent r = some r := by
  rcases root_fix s hInv r with ⟨hnone, _⟩ | hfix
  · rw [mem_keys_iff_alookup, hnone] at hmem
    simp at hmem
  · rw [hroot] at hfix
    exact hfix

/-! ## UnionFind: the one parent mutation -/

/-- Redirecting one present element's parent onto a root — the single
form of parent mutation that both path compression and linking
perform.  Provided the redirected element is itself a root (linking)
or the new parent is its own root (compression), every element's new
root arises from its old one by redirecting the mutated class. -/
theorem redirect_root (u u' : UnionFind) (hInv : Inv u) (hInv' : Inv u')
    (x r : List Char) (hx : x ∈ u.parent.map Prod.fst)
    (hr : alookup u.parent r = some r)
    (hcase : root u x = x ∨ r = root u x)
    (hparent : u'.parent = aupdate u.parent x r) :
    ∀ z, root u' z = if root u z = root u x then r else root u z := by
  have hrootx_mem : root u x ∈ u.parent.map Prod.fst := by
    rcases root_fix u hInv x with ⟨hnone, _⟩ | hfix
    · rw [mem_keys_iff_alookup, hnone] at hx
      simp at hx
    · rw [mem_keys_iff_alookup, hfix]
      simp
  have main : ∀ (f : Nat) (z : List Char), maxRank u' < rnk u' z + f →
      rootFuel f u'.parent z =
        if root u z = root u x then r else root u z := by
    intro f
    induction f with
    | zero =>
      intro z h
      have := rnk_le_maxRank u' z
      omega
    | succ f ih =>
      intro z h
      by_cases hzx : z = x
      · subst hzx
        rw [if_pos rfl]
        have hlu : alookup u'.parent z = some r := by
          rw [hparent]
          exact alookup_aupdate_self _ _ _
        simp only [rootFuel, hlu]
        by_cases hrx : r = z
        · rw [if_pos hrx]
          exact hrx.symm
        · rw [if_neg hrx]
          have hlt := hInv'.rankUp z r hlu hrx
          rw [ih r (by omega), root_of_self_parent u r hr]
          split_ifs <;> rfl
      · have hlu : alookup u'.parent z = alookup u.parent z := by
          rw [hparent]
          exact alookup_aupdate_ne _ _ _ _ hzx
        cases hp : alookup u.parent z with
        | none =>
          have hz_nmem : z ∉ u.parent.map Prod.fst :=
            (alookup_eq_none_iff _ _).mp hp
          have hrz : root u z = z := root_of_not_mem u z hp
          have hcond : ¬ root u z = root u x := by
            rw [hrz]
            intro hzz
            exact hz_nmem (hzz ▸ hrootx_mem)
          rw [if_neg hcond, hrz]
          simp only [rootFuel, hlu, hp]
        | some pz =>
          by_cases hpz : pz = z
          · rw [hpz] at hp
            have hrz : root u z = z := root_of_self_parent u z hp
            have hlz : rootFuel (f + 1) u'.parent z = z := by
              simp [rootFuel, hlu, hp]
            rw [hlz]
            by_cases hcond : root u z = root u x
            · rw [if_pos hcond]
              rw [hrz] at hcond
              rcases hcase with hc | hc
              · exact absurd (hcond.trans hc) hzx
              · rw [hcond, hc]
            · rw [if_neg hcond, hrz]
          · have hlt := hInv'.rankUp z pz (hlu.trans hp) hpz
            have hstep : rootFuel (f + 1) u'.parent z =
                rootFuel f u'.parent pz := by
              simp only [rootFuel, hlu, hp, hpz, if_false]
            rw [hstep, ih pz (by omega),
              root_parent_step u hInv z pz hp]
  intro z
  exact main (maxRank u' + 1) z (by omega)

/-- Path compression (`self.parent[x] = root`) preserves the
invariant. -/
theorem compress_inv (u : UnionFind) (hInv : Inv u) (x : List Char)
    (hx : x ∈ u.parent.map Prod.fst) :
    Inv ⟨aupdate u.parent x (root u x), u.rank⟩ := by
  have hkeys : (aupdate u.parent x (root u x)).map Prod.fst =
      u.parent.map Prod.fst := aupdate_keys_of_mem _ _ _ hx
  have hrx_mem : root u x ∈ u.parent.map Prod.fst := by
    rcases root_fix u hInv x with ⟨hnone, _⟩ | hfix
    · rw [mem_keys_iff_alookup, hnone] at hx
      simp at hx
    · rw [mem_keys_iff_alookup, hfix]
      simp
  refine ⟨?_, ?_, ?_, ?_⟩
  · dsimp only
    rw [hkeys]
    exact hInv.nodupKeys
  · dsimp only
    rw [hkeys]
    exact hInv.rankKeys
  · dsimp only
    intro z p hzp
    rw [hkeys]
    by_cases hzx : z = x
    · subst hzx
      rw [alookup_aupdate_self] at hzp
      cases hzp
      exact hrx_mem
    · rw [alookup_aupdate_ne _ _ _ _ hzx] at hzp
      exact hInv.closed z p hzp
  · intro z p hzp hpz
    show rnk u z < rnk u p
    dsimp only at hzp
    by_cases hzx : z = x
    · subst hzx
      rw [alookup_aupdate_self] at hzp
      cases hzp
      obtain ⟨px, hpx⟩ :=
        Option.isSome_iff_exists.mp ((mem_keys_iff_alookup _ _).mp hx)
      by_cases hpxx : px = z
      · rw [hpxx] at hpx
        exact absurd (root_of_self_parent u z hpx) hpz
      · exact rnk_lt_root u hInv z px hpx hpxx
    · rw [alookup_aupdate_ne _ _ _ _ hzx] at hzp
      exact hInv.rankUp z p hzp hpz

/-- Linking a root of strictly smaller rank under another root
preserves the invariant. -/
theorem link_inv (u : UnionFind) (hInv : Inv u) (ra rb : List Char)
    (hra : alookup u.parent ra = some ra)
    (hrb : alookup u.parent rb = some rb)
    (hrank : rnk u ra < rnk u rb) :
    Inv ⟨aupdate u.parent ra rb, u.rank⟩ := by
  have hamem : ra ∈ u.parent.map Prod.fst := by
    rw [mem_keys_iff_alookup, hra]
    simp
  have hbmem : rb ∈ u.parent.map Prod.fst := by
    rw [mem_keys_iff_alookup, hrb]
    simp
  have hkeys : (aupdate u.parent ra rb).map Prod.fst =
      u.parent.map Prod.fst := aupdate_keys_of_mem _ _ _ hamem
  refine ⟨?_, ?_, ?_, ?_⟩
  · dsimp only
    rw [hkeys]
    exact hInv.nodupKeys
  · dsimp only
    rw [hkeys]
    exact hInv.rankKeys
  · dsimp only
    intro z p hzp
    rw [hkeys]
    by_cases hza : z = ra
    · subst hza
      rw [alookup_aupdate_self] at hzp
      cases hzp
      exact hbmem
    · rw [alookup_aupdate_ne _ _ _ _ hza] at hzp
      exact hInv.closed z p hzp
  · intro z p hzp hpz
    show rnk u z < rnk u p
    dsimp only at hzp
    by_cases hza : z = ra
    · subst hza
      rw [alookup_aupdate_self] at hzp
      cases hzp
      exact hrank
    · rw [alookup_aupdate_ne _ _ _ _ hza] at hzp
      exact hInv.rankUp z p hzp hpz

/-- Rank lookup after a rank update. -/
theorem rnk_aupdate (u : UnionFind) (p' : List (List Char × List Char))
    (ra : List Char) (v : Nat) (z : List Char) :
    rnk ⟨p', aupdate u.rank ra v⟩ z = if z = ra then v else rnk u z := by
  by_cases h : z = ra
  · subst h
    simp [rnk, alookup_aupdate_self]
  · simp [rnk, alookup_aupdate_ne _ _ _ _ h, h]

/-- The equal-rank link (link `rb` under `ra` and bump `ra`'s rank)
preserves the invariant. -/
theorem link_bump_inv (u : UnionFind) (hInv : Inv u) (ra rb : List Char)
    (hra : alookup u.parent ra = some ra)
    (hrb : alookup u.parent rb = some rb)
    (hne : ra ≠ rb) (hrank : rnk u ra = rnk u rb) :
    Inv ⟨aupdate u.parent rb ra, aupdate u.rank ra (rnk u ra + 1)⟩ := by
  have hamem : ra ∈ u.parent.map Prod.fst := by
    rw [mem_keys_iff_alookup, hra]
    simp
  have hbmem : rb ∈ u.parent.map Prod.fst := by
    rw [mem_keys_iff_alookup, hrb]
    simp
  have hkeys : (aupdate u.parent rb ra).map Prod.fst =
      u.parent.map Prod.fst := aupdate_keys_of_mem _ _ _ hbmem
  have hrkeys : (aupdate u.rank ra (rnk u ra + 1)).map Prod.fst =
      u.rank.map Prod.fst := by
    refine aupdate_keys_of_mem _ _ _ ?_
    rw [hInv.rankKeys]
    exact hamem
  refine ⟨?_, ?_, ?_, ?_⟩
  · dsimp only
    rw [hkeys]
    exact hInv.nodupKeys
  · dsimp only
    rw [hrkeys, hkeys]
    exact hInv.rankKeys
  · dsimp only
    intro z p hzp
    rw [hkeys]
    by_cases hzb : z = rb
    · subst hzb
      rw [alookup_aupdate_self] at hzp
      cases hzp
      exact hamem
    · rw [alookup_aupdate_ne _ _ _ _ hzb] at hzp
      exact hInv.closed z p hzp
  · intro z p hzp hpz
    dsimp only at hzp
    rw [rnk_aupdate u _ ra _ z, rnk_aupdate u _ ra _ p]
    by_cases hzb : z = rb
    · subst hzb
      rw [alookup_aupdate_self] at hzp
      cases hzp
      rw [if_pos rfl, if_neg (fun h => hne h.symm)]
      omega
    · rw [alookup_aupdate_ne _ _ _ _ hzb] at hzp
      have hold := hInv.rankUp z p hzp hpz
      by_cases hza : z = ra
      · subst hza
        rw [hra] at hzp
        cases hzp
        exact absurd rfl hpz
      · rw [if_neg hza]
        by_cases hpa : p = ra
        · rw [if_pos hpa]
          rw [hpa] at hold
          omega
        · rw [if_neg hpa]
          exact hold

/-! ## UnionFind: inserting a fresh element -/

/-- Appending a zero-rank entry changes no rank value. -/
theorem getD_alookup_append_zero {α : Type} [DecidableEq α]
    (rk : List (α × Nat)) (x z : α) :
    (alookup (rk ++ [(x, 0)]) z).getD 0 = (alookup rk z).getD 0 := by
  cases h : alookup rk z with
  | some v => rw [alookup_append_of_some _ h]
  | none =>
    rw [alookup_append_of_none _ h]
    by_cases hz : z = x
    · subst hz
      simp [alookup]
    · simp [alookup, hz]

/-- The fresh insert of `find` changes no rank value. -/
theorem rnk_append_fresh (s : UnionFind) (x z : List Char) :
    rnk ⟨s.parent ++ [(x, x)], s.rank ++ [(x, 0)]⟩ z = rnk s z := by
  show (alookup (s.rank ++ [(x, 0)]) z).getD 0 = _
  exact getD_alookup_append_zero _ _ _

/-- The fresh insert of `find` keeps `maxRank`. -/
theorem maxRank_append_fresh (s : UnionFind) (x : List Char) :
    maxRank ⟨s.parent ++ [(x, x)], s.rank ++ [(x, 0)]⟩ = maxRank s := by
  show ((s.rank ++ [(x, 0)]).map Prod.snd).foldr max 0 = _
  simp only [List.map_append, List.map_cons, List.map_nil]
  exact foldr_max_append_zero _

/-- Inserting a fresh self-rooted element preserves the invariant. -/
theorem fresh_inv (s : UnionFind) (hInv : Inv s) (x : List Char)
    (hx : alookup s.parent x = none) :
    Inv ⟨s.parent ++ [(x, x)], s.rank ++ [(x, 0)]⟩ := by
  have hx_nmem : x ∉ s.parent.map Prod.fst := (alookup_eq_none_iff _ _).mp hx
  refine ⟨?_, ?_, ?_, ?_⟩
  · dsimp only
    simp only [List.map_append, List.map_cons, List.map_nil]
    refine List.Nodup.append hInv.nodupKeys (List.nodup_singleton x) ?_
    intro b hb1 hb2
    rw [List.mem_singleton] at hb2
    subst hb2
    exact hx_nmem hb1
  · dsimp only
    simp only [List.map_append, List.map_cons, List.map_nil]
    rw [hInv.rankKeys]
  · dsimp only
    intro z p hzp
    simp only [List.map_append, List.map_cons, List.map_nil]
    cases h : alookup s.parent z with
    | some p0 =>
      rw [alookup_append_of_some _ h] at hzp
      cases hzp
      exact List.mem_append_left _ (hInv.closed z p h)
    | none =>
      rw [alookup_append_of_none _ h] at hzp
      by_cases hzx : z = x
      · subst hzx
        simp [alookup] at hzp
        subst hzp
        exact List.mem_append_right _ (by simp)
      · simp [alookup, hzx] at hzp
  · intro z p hzp hpz
    rw [rnk_append_fresh, rnk_append_fresh]
    dsimp only at hzp
    cases h : alookup s.parent z with
    | some p0 =>
      rw [alookup_append_of_some _ h] at hzp
      cases hzp
      exact hInv.rankUp z p h hpz
    | none =>
      rw [alookup_append_of_none _ h] at hzp
      by_cases hzx : z = x
      · subst hzx
        simp [alookup] at hzp
        exact absurd hzp.symm hpz
      · simp [alookup, hzx] at hzp

/-- Inserting a fresh self-rooted element changes no root. -/
theorem root_append_fresh (s : UnionFind) (hInv : Inv s) (x : List Char)
    (hx : alookup s.parent x = none) :
    ∀ z, root ⟨s.parent ++ [(x, x)], s.rank ++ [(x, 0)]⟩ z = root s z := by
  have hmax := maxRank_append_fresh s x
  have main : ∀ (f : Nat) (z : List Char), maxRank s < rnk s z + f →
      rootFuel f (s.parent ++ [(x, x)]) z = rootFuel f s.parent z := by
    intro f
    induction f with
    | zero =>
      intro z h
      rfl
    | succ f ih =>
      intro z h
      by_cases hzx : z = x
      · rw [hzx]
        have h1 : alookup (s.parent ++ [(x, x)]) x = some x := by
          rw [alookup_append_of_none _ hx]
          simp [alookup]
        simp [rootFuel, h1, hx]
      · cases hp : alookup s.parent z with
        | none =>
          have h1 : alookup (s.parent ++ [(x, x)]) z = none := by
            rw [alookup_append_of_none _ hp]
            simp [alookup, hzx]
          simp [rootFuel, h1, hp]
        | some pz =>
          have h1 : alookup (s.parent ++ [(x, x)]) z = some pz :=
            alookup_append_of_some _ hp
          by_cases hpzz : pz = z
          · simp [rootFuel, h1, hp, hpzz]
          · have hlt := hInv.rankUp z pz hp hpzz
            simp only [rootFuel, h1, hp, hpzz, if_false]
            exact ih pz (by omega)
  intro z
  unfold root
  dsimp only
  rw [hmax]
  have hrnk : rnk ⟨s.parent ++ [(x, x)], s.rank ++ [(x, 0)]⟩ z = rnk s z :=
    rnk_append_fresh s x z
  exact main (maxRank s + 1) z (by omega)

/-! ## UnionFind: the `find` specification -/

/-- `findFuel` with sufficient fuel returns the compression-free root,
preserves the invariant and every root, and extends the two maps by a
fresh self-entry exactly when the element was absent. -/
theorem findFuel_spec (s : UnionFind) (hInv : Inv s) :
    ∀ (f : Nat) (x : List Char), maxRank s < rnk s x + f →
      (findFuel f s x).1 = root s x ∧
      Inv (findFuel f s x).2 ∧
      (∀ z, root (findFuel f s x).2 z = root s z) ∧
      (findFuel f s x).2.rank =
        (if alookup s.parent x = none then s.rank ++ [(x, 0)]
         else s.rank) ∧
      (findFuel f s x).2.parent.map Prod.fst =
        (if alookup s.parent x = none then s.parent.map Prod.fst ++ [x]
         else s.parent.map Prod.fst) := by
  intro f
  induction f with
  | zero =>
    intro x h
    have := rnk_le_maxRank s x
    omega
  | succ f ih =>
    intro x h
    cases hp : alookup s.parent x with
    | none =>
      have hres : findFuel (f + 1) s x =
          (x, ⟨s.parent ++ [(x, x)], s.rank ++ [(x, 0)]⟩) := by
        simp [findFuel, hp]
      rw [hres]
      refine ⟨(root_of_not_mem s x hp).symm, fresh_inv s hInv x hp,
        root_append_fresh s hInv x hp, ?_, ?_⟩
      · simp
      · simp
    | some px =>
      by_cases hpx : px = x
      · rw [hpx] at hp
        have hres : findFuel (f + 1) s x = (x, s) := by
          simp [findFuel, hp]
        rw [hres]
        refine ⟨(root_of_self_parent s x hp).symm, hInv, fun z => rfl,
          ?_, ?_⟩
        · rw [if_neg (Option.some_ne_none px)]
        · rw [if_neg (Option.some_ne_none px)]
      · have hlt := hInv.rankUp x px hp hpx
        obtain ⟨h1, hInv2, hroots2, hrank2, hkeys2⟩ := ih px (by omega)
        have hpx_mem : px ∈ s.parent.map Prod.fst := hInv.closed x px hp
        have hpx_some : ¬ alookup s.parent px = none := fun hn =>
          (alookup_eq_none_iff _ _).mp hn hpx_mem
        rw [if_neg hpx_some] at hrank2 hkeys2
        have hres : findFuel (f + 1) s x =
            ((findFuel f s px).1,
             ⟨aupdate (findFuel f s px).2.parent x (findFuel f s px).1,
              (findFuel f s px).2.rank⟩) := by
          simp [findFuel, hp, hpx]
        have hfst : (findFuel f s px).1 = root (findFuel f s px).2 x := by
          rw [h1, hroots2 x, root_parent_step s hInv x px hp]
        have hx_mem_u : x ∈ (findFuel f s px).2.parent.map Prod.fst := by
          rw [hkeys2, mem_keys_iff_alookup, hp]
          simp
        have hInv3 : Inv ⟨aupdate (findFuel f s px).2.parent x
            (findFuel f s px).1, (findFuel f s px).2.rank⟩ := by
          rw [hfst]
          exact compress_inv _ hInv2 x hx_mem_u
        have hr_self : alookup (findFuel f s px).2.parent
            (root (findFuel f s px).2 x) =
            some (root (findFuel f s px).2 x) := by
          rcases root_fix _ hInv2 x with ⟨hnone, _⟩ | hfix
          · rw [alookup_eq_none_iff] at hnone
            exact absurd hx_mem_u hnone
          · exact hfix
        have hroots3 : ∀ z, root ⟨aupdate (findFuel f s px).2.parent x
            (findFuel f s px).1, (findFuel f s px).2.rank⟩ z =
            root s z := by
          intro z
          have hred := redirect_root (findFuel f s px).2
            ⟨aupdate (findFuel f s px).2.parent x (findFuel f s px).1,
             (findFuel f s px).2.rank⟩
            hInv2 hInv3 x (root (findFuel f s px).2 x) hx_mem_u hr_self
            (Or.inr rfl) (by dsimp only; rw [hfst]) z
          rw [hred]
          by_cases hcond : root (findFuel f s px).2 z =
              root (findFuel f s px).2 x
          · rw [if_pos hcond, ← hcond, hroots2 z]
          · rw [if_neg hcond, hroots2 z]
        rw [hres]
        refine ⟨?_, hInv3, hroots3, ?_, ?_⟩
        · rw [h1]
          exact (root_parent_step s hInv x px hp).symm
        · dsimp only
          rw [if_neg (Option.some_ne_none px), hrank2]
        · dsimp only
          rw [if_neg (Option.some_ne_none px),
            aupdate_keys_of_mem _ _ _ hx_mem_u, hkeys2]

/-- The `find` wrapper enjoys the `findFuel` specification: its
definitional fuel is always sufficient. -/
theorem find_spec (s : UnionFind) (hInv : Inv s) (x : List Char) :
    (find s x).1 = root s x ∧
    Inv (find s x).2 ∧
    (∀ z, root (find s x).2 z = root s z) ∧
    (find s x).2.rank =
      (if alookup s.parent x = none then s.rank ++ [(x, 0)]
       else s.rank) ∧
    (find s x).2.parent.map Prod.fst =
      (if alookup s.parent x = none then s.parent.map Prod.fst ++ [x]
       else s.parent.map Prod.fst) := by
  unfold find
  exact findFuel_spec s hInv (maxRank s + 1) x (by omega)

/-- Key membership after `find`: exactly the old keys plus the
argument. -/
theorem find_mem_keys (s : UnionFind) (hInv : Inv s) (x : List Char) :
    ∀ z, z ∈ (find s x).2.parent.map Prod.fst ↔
      z ∈ s.parent.map Prod.fst ∨ z = x := by
  intro z
  obtain ⟨_, _, _, _, hkeys⟩ := find_spec s hInv x
  rw [hkeys]
  by_cases hp : alookup s.parent x = none
  · rw [if_pos hp]
    simp
  · rw [if_neg hp]
    constructor
    · exact Or.inl
    · rintro (hz | hz)
      · exact hz
      · subst hz
        rw [mem_keys_iff_alookup]
        cases halo : alookup s.parent z with
        | none => exact absurd halo hp
        | some v => simp

/-! ## UnionFind: `find` idempotence and `union` -/

/-- Calling `find` again on its own result is a no-op: the returned
root is a self-parent in the returned state. -/
theorem find_idem (s : UnionFind) (hInv : Inv s) (x : List Char) :
    find (find s x).2 (find s x).1 = ((find s x).1, (find s x).2) := by
  obtain ⟨h1, hInv1, hroots, _, _⟩ := find_spec s hInv x
  have hroot1 : root (find s x).2 (find s x).1 = (find s x).1 := by
    rw [hroots, h1, root_root s hInv x]
  have hmem : (find s x).1 ∈ (find s x).2.parent.map Prod.fst := by
    rw [find_mem_keys s hInv x]
    by_cases hp : alookup s.parent x = none
    · right
      rw [h1]
      exact root_of_not_mem s x hp
    · left
      rw [h1]
      rcases root_fix s hInv x with ⟨hnone, _⟩ | hfix
      · exact absurd hnone hp
      · rw [mem_keys_iff_alookup, hfix]
        simp
  have hself : alookup (find s x).2.parent (find s x).1 =
      some (find s x).1 := alookup_root_self _ hInv1 _ hmem hroot1
  have hdef : find (find s x).2 (find s x).1 =
      findFuel (maxRank (find s x).2 + 1) (find s x).2 (find s x).1 := rfl
  rw [hdef]
  simp [findFuel, hself]

/-- How equality of redirected roots decomposes: propositional core of
the `union` root update. -/
theorem redirect_eq_iff {α : Type} [DecidableEq α] (rt : α → α) (A B : α)
    (hAB : A ≠ B) (a b : α) :
    ((if rt a = A then B else rt a) = if rt b = A then B else rt b) ↔
      (rt a = rt b ∨ (rt a = A ∧ rt b = B) ∨ (rt a = B ∧ rt b = A)) := by
  by_cases ha : rt a = A <;> by_cases hb : rt b = A
  · simp [ha, hb]
  · rw [if_pos ha, if_neg hb]
    constructor
    · intro h
      exact Or.inr (Or.inl ⟨ha, h.symm⟩)
    · rintro (h | ⟨h1, h2⟩ | ⟨h1, h2⟩)
      · exact absurd (h.symm.trans ha) hb
      · exact h2.symm
      · exact absurd (ha.symm.trans h1) hAB
  · rw [if_neg ha, if_pos hb]
    constructor
    · intro h
      exact Or.inr (Or.inr ⟨h, hb⟩)
    · rintro (h | ⟨h1, h2⟩ | ⟨h1, h2⟩)
      · exact absurd (h.trans hb) ha
      · exact absurd h1 ha
      · exact h1
  · rw [if_neg ha, if_neg hb]
    constructor
    · exact Or.inl
    · rintro (h | ⟨h1, h2⟩ | ⟨h1, h2⟩)
      · exact h
      · exact absurd h1 ha
      · exact absurd h2 hb

set_option maxHeartbeats 1000000 in
/-- The `union` specification: the invariant is preserved, `False` is
returned exactly when the two roots already agreed, the new
root-equivalence is the old one with the two classes merged, and the
keys grow by the two arguments. -/
theorem union_spec (s : UnionFind) (hInv : Inv s) (x y : List Char) :
    Inv (union s x y).2 ∧
    ((union s x y).1 = false ↔ root s x = root s y) ∧
    (∀ a b, root (union s x y).2 a = root (union s x y).2 b ↔
      (root s a = root s b ∨
       (root s a = root s x ∧ root s b = root s y) ∨
       (root s a = root s y ∧ root s b = root s x))) ∧
    (∀ z, z ∈ (union s x y).2.parent.map Prod.fst ↔
      z ∈ s.parent.map Prod.fst ∨ z = x ∨ z = y) := by
  obtain ⟨hrx, hInv1, hroots1, _, _⟩ := find_spec s hInv x
  obtain ⟨hfy1, hInv2, hroots2, _, _⟩ := find_spec (find s x).2 hInv1 y
  have hry : (find (find s x).2 y).1 = root s y := by
    rw [hfy1, hroots1]
  have hroots2' : ∀ z, root (find (find s x).2 y).2 z = root s z :=
    fun z => (hroots2 z).trans (hroots1 z)
  have hmem2 : ∀ z, z ∈ (find (find s x).2 y).2.parent.map Prod.fst ↔
      z ∈ s.parent.map Prod.fst ∨ z = x ∨ z = y := by
    intro z
    rw [find_mem_keys (find s x).2 hInv1 y, find_mem_keys s hInv x]
    tauto
  set rX := (find s x).1 with hrX
  set rY := (find (find s x).2 y).1 with hrY
  set s2 := (find (find s x).2 y).2 with hs2
  by_cases hxy : rX = rY
  · have hu : union s x y = (false, s2) := by
      simp only [union]
      rw [← hrX, ← hrY, ← hs2, if_pos hxy]
    have hrooteq : root s x = root s y := by
      rw [← hrx, ← hry, hxy]
    rw [hu]
    refine ⟨hInv2, ?_, ?_, hmem2⟩
    · simp [hrooteq]
    · intro a b
      rw [hroots2' a, hroots2' b]
      constructor
      · exact Or.inl
      · rintro (h | ⟨h1, h2⟩ | ⟨h1, h2⟩)
        · exact h
        · rw [h1, h2, hrooteq]
        · rw [h1, h2, hrooteq]
  · have hrootne : ¬ root s x = root s y := by
      rw [← hrx, ← hry]
      exact hxy
    have hrootselfx : root s2 rX = rX := by
      rw [hroots2', hrx, root_root s hInv x]
    have hrootselfy : root s2 rY = rY := by
      rw [hroots2', hry, root_root s hInv y]
    have hmemx : rX ∈ s2.parent.map Prod.fst := by
      rw [hmem2, hrx]
      rcases root_fix s hInv x with ⟨_, hrr⟩ | hfix
      · right
        left
        exact hrr
      · left
        rw [mem_keys_iff_alookup, hfix]
        simp
    have hmemy : rY ∈ s2.parent.map Prod.fst := by
      rw [hmem2, hry]
      rcases root_fix s hInv y with ⟨_, hrr⟩ | hfix
      · right
        right
        exact hrr
      · left
        rw [mem_keys_iff_alookup, hfix]
        simp
    have hselfx : alookup s2.parent rX = some rX :=
      alookup_root_self s2 hInv2 rX hmemx hrootselfx
    have hselfy : alookup s2.parent rY = some rY :=
      alookup_root_self s2 hInv2 rY hmemy hrootselfy
    have hxyne : root s x ≠ rY := by
      rw [hry]
      exact hrootne
    have hyxne : root s y ≠ rX := by
      rw [hrx]
      exact fun h => hrootne h.symm
    rcases Nat.lt_trichotomy ((alookup s2.rank rX).getD 0)
      ((alookup s2.rank rY).getD 0) with hcmp | hcmp | hcmp
    · -- rank rX < rank rY: link rX under rY
      have hu : union s x y =
          (true, ⟨aupdate s2.parent rX rY, s2.rank⟩) := by
        simp only [union]
        rw [← hrX, ← hrY, ← hs2, if_neg hxy, if_pos hcmp]
      have hInv3 : Inv ⟨aupdate s2.parent rX rY, s2.rank⟩ :=
        link_inv s2 hInv2 rX rY hselfx hselfy hcmp
      have hform : ∀ z,
          root (⟨aupdate s2.parent rX rY, s2.rank⟩ : UnionFind) z =
          if root s z = root s x then rY else root s z := by
        intro z
        have h0 := redirect_root s2 ⟨aupdate s2.parent rX rY, s2.rank⟩
          hInv2 hInv3 rX rY hmemx hselfy (Or.inl hrootselfx) rfl z
        rw [hrootselfx, hroots2' z] at h0
        rw [h0, hrx]
      rw [hu]
      refine ⟨hInv3, ?_, ?_, ?_⟩
      · simp [hrootne]
      · intro a b
        rw [hform a, hform b,
          redirect_eq_iff (root s) (root s x) rY hxyne a b, hry]
      · intro z
        dsimp only
        rw [aupdate_keys_of_mem _ _ _ hmemx]
        exact hmem2 z
    · -- equal ranks: link rY under rX and bump rX's rank
      have hu : union s x y =
          (true, ⟨aupdate s2.parent rY rX,
            aupdate s2.rank rX ((alookup s2.rank rX).getD 0 + 1)⟩) := by
        simp only [union]
        rw [← hrX, ← hrY, ← hs2, if_neg hxy, if_neg (by omega),
          if_neg (by omega)]
      have hInv3 : Inv ⟨aupdate s2.parent rY rX,
          aupdate s2.rank rX ((alookup s2.rank rX).getD 0 + 1)⟩ :=
        link_bump_inv s2 hInv2 rX rY hselfx hselfy hxy hcmp
      have hform : ∀ z,
          root (⟨aupdate s2.parent rY rX,
            aupdate s2.rank rX ((alookup s2.rank rX).getD 0 + 1)⟩ :
            UnionFind) z =
          if root s z = root s y then rX else root s z := by
        intro z
        have h0 := redirect_root s2 ⟨aupdate s2.parent rY rX,
            aupdate s2.rank rX ((alookup s2.rank rX).getD 0 + 1)⟩
          hInv2 hInv3 rY rX hmemy hselfx (Or.inl hrootselfy) rfl z
        rw [hrootselfy, hroots2' z] at h0
        rw [h0, hry]
      rw [hu]
      refine ⟨hInv3, ?_, ?_, ?_⟩
      · simp [hrootne]
      · intro a b
        rw [hform a, hform b,
          redirect_eq_iff (root s) (root s y) rX hyxne a b, hrx]
        tauto
      · intro z
        dsimp only
        rw [aupdate_keys_of_mem _ _ _ hmemy]
        exact hmem2 z
    · -- rank rY < rank rX: link rY under rX
      have hu : union s x y =
          (true, ⟨aupdate s2.parent rY rX, s2.rank⟩) := by
        simp only [union]
        rw [← hrX, ← hrY, ← hs2, if_neg hxy, if_neg (by omega),
          if_pos hcmp]
      have hInv3 : Inv ⟨aupdate s2.parent rY rX, s2.rank⟩ :=
        link_inv s2 hInv2 rY rX hselfy hselfx hcmp
      have hform : ∀ z,
          root (⟨aupdate s2.parent rY rX, s2.rank⟩ : UnionFind) z =
          if root s z = root s y then rX else root s z := by
        intro z
        have h0 := redirect_root s2 ⟨aupdate s2.parent rY rX, s2.rank⟩
          hInv2 hInv3 rY rX hmemy hselfx (Or.inl hrootselfy) rfl z
        rw [hrootselfy, hroots2' z] at h0
        rw [h0, hry]
      rw [hu]
      refine ⟨hInv3, ?_, ?_, ?_⟩
      · simp [hrootne]
      · intro a b
        rw [hform a, hform b,
          redirect_eq_iff (root s) (root s y) rX hyxne a b, hrx]
        tauto
      · intro z
        dsimp only
        rw [aupdate_keys_of_mem _ _ _ hmemy]
        exact hmem2 z

/-! ## UnionFind: executing an operation sequence -/

/-- Strengthening the base relation strengthens the closure. -/
theorem linkedOver_congr {R R' : List Char → List Char → Prop}
    {pairs : List (List Char × List Char)}
    (h : ∀ a b, R a b → R' a b) :
    ∀ a b, LinkedOver R pairs a b → LinkedOver R' pairs a b := by
  intro a b hl
  induction hl with
  | base hb => exact LinkedOver.base (h _ _ hb)
  | pair hp => exact LinkedOver.pair hp
  | symm _ ih => exact LinkedOver.symm ih
  | trans _ _ ih1 ih2 => exact LinkedOver.trans ih1 ih2

/-- Over no pairs, the closure of an equivalence-shaped base relation
is that relation. -/
theorem linkedOver_nil (R : List Char → List Char → Prop)
    (hsym : ∀ a b, R a b → R b a)
    (htrans : ∀ a b c, R a b → R b c → R a c) (a b : List Char) :
    LinkedOver R [] a b ↔ R a b := by
  constructor
  · intro h
    induction h with
    | base hb => exact hb
    | pair hp => simp at hp
    | symm _ ih => exact hsym _ _ ih
    | trans _ _ ih1 ih2 => exact htrans _ _ _ ih1 ih2
  · exact LinkedOver.base

/-- A `find` call changes no roots, hence no closure. -/
theorem linkedOver_find (s : UnionFind) (hInv : Inv s) (x : List Char)
    (pairs : List (List Char × List Char)) (a b : List Char) :
    LinkedOver (fun a b => root (find s x).2 a = root (find s x).2 b)
      pairs a b ↔
    LinkedOver (fun a b => root s a = root s b) pairs a b := by
  obtain ⟨_, _, hroots, _, _⟩ := find_spec s hInv x
  constructor
  · exact linkedOver_congr
      (fun a b hab => by rw [← hroots a, ← hroots b]; exact hab) a b
  · exact linkedOver_congr
      (fun a b hab => by rw [hroots a, hroots b]; exact hab) a b

/-- A `union` call prepends its pair to the closure. -/
theorem linkedOver_union (s : UnionFind) (hInv : Inv s) (x y : List Char)
    (pairs : List (List Char × List Char)) (a b : List Char) :
    LinkedOver
      (fun a b => root (union s x y).2 a = root (union s x y).2 b)
      pairs a b ↔
    LinkedOver (fun a b => root s a = root s b) ((x, y) :: pairs) a b := by
  obtain ⟨_, _, hiff, _⟩ := union_spec s hInv x y
  constructor
  · intro h
    induction h with
    | base hb =>
      rcases (hiff _ _).mp hb with h1 | ⟨h1, h2⟩ | ⟨h1, h2⟩
      · exact LinkedOver.base h1
      · exact LinkedOver.trans (LinkedOver.base h1)
          (LinkedOver.trans (LinkedOver.pair (List.mem_cons_self _ _))
            (LinkedOver.base h2.symm))
      · exact LinkedOver.trans (LinkedOver.base h1)
          (LinkedOver.trans
            (LinkedOver.symm (LinkedOver.pair (List.mem_cons_self _ _)))
            (LinkedOver.base h2.symm))
    | pair hp => exact LinkedOver.pair (List.mem_cons_of_mem _ hp)
    | symm _ ih => exact LinkedOver.symm ih
    | trans _ _ ih1 ih2 => exact LinkedOver.trans ih1 ih2
  · intro h
    induction h with
    | base hb => exact LinkedOver.base ((hiff _ _).mpr (Or.inl hb))
    | pair hp =>
      rcases List.mem_cons.mp hp with heq | hmem
      · rw [Prod.mk.injEq] at heq
        obtain ⟨h1, h2⟩ := heq
        subst h1
        subst h2
        exact LinkedOver.base
          ((hiff _ _).mpr (Or.inr (Or.inl ⟨rfl, rfl⟩)))
      · exact LinkedOver.pair hmem
    | symm _ ih => exact LinkedOver.symm ih
    | trans _ _ ih1 ih2 => exact LinkedOver.trans ih1 ih2

/-- Executing operations from any invariant state: the invariant is
preserved, keys grow by the arguments, and root-equivalence becomes
the closure of the starting equivalence with the union pairs. -/
theorem execFrom_spec :
    ∀ (ops : List UFOp) (s : UnionFind), Inv s →
      Inv (execFrom s ops) ∧
      (∀ z, z ∈ (execFrom s ops).parent.map Prod.fst ↔
        z ∈ s.parent.map Prod.fst ∨ z ∈ argsOf ops) ∧
      (∀ a b, root (execFrom s ops) a = root (execFrom s ops) b ↔
        LinkedOver (fun a b => root s a = root s b)
          (unionPairs ops) a b) := by
  intro ops
  induction ops with
  | nil =>
    intro s hInv
    have hexec : execFrom s [] = s := rfl
    have hargs : argsOf ([] : List UFOp) = [] := rfl
    have hpairs : unionPairs ([] : List UFOp) = [] := rfl
    rw [hexec, hargs, hpairs]
    refine ⟨hInv, ?_, ?_⟩
    · intro z
      simp
    · intro a b
      exact (linkedOver_nil (fun a b => root s a = root s b)
        (fun a b (h : root s a = root s b) => h.symm)
        (fun a b c (h1 : root s a = root s b)
          (h2 : root s b = root s c) => h1.trans h2) a b).symm
  | cons op ops ih =>
    intro s hInv
    cases op with
    | findOp x =>
      have hexec : execFrom s (UFOp.findOp x :: ops) =
          execFrom (find s x).2 ops := rfl
      have hargs : argsOf (UFOp.findOp x :: ops) = x :: argsOf ops := rfl
      have hpairs : unionPairs (UFOp.findOp x :: ops) =
          unionPairs ops := rfl
      obtain ⟨hI, hK, hR⟩ := ih (find s x).2 (find_spec s hInv x).2.1
      rw [hexec, hargs, hpairs]
      refine ⟨hI, ?_, ?_⟩
      · intro z
        rw [hK z, find_mem_keys s hInv x, List.mem_cons]
        tauto
      · intro a b
        rw [hR a b, linkedOver_find s hInv x]
    | unionOp x y =>
      have hexec : execFrom s (UFOp.unionOp x y :: ops) =
          execFrom (union s x y).2 ops := rfl
      have hargs : argsOf (UFOp.unionOp x y :: ops) =
          x :: y :: argsOf ops := rfl
      have hpairs : unionPairs (UFOp.unionOp x y :: ops) =
          (x, y) :: unionPairs ops := rfl
      obtain ⟨hI, hK, hR⟩ := ih (union s x y).2 (union_spec s hInv x y).1
      rw [hexec, hargs, hpairs]
      refine ⟨hI, ?_, ?_⟩
      · intro z
        rw [hK z, (union_spec s hInv x y).2.2.2 z, List.mem_cons,
          List.mem_cons]
        tauto
      · intro a b
        rw [hR a b, linkedOver_union s hInv x y]

/-- In the empty structure every element is its own root. -/
theorem root_emptyUF (z : List Char) : root UnionFind.emptyUF z = z := rfl

/-- Over the empty structure the closure with the pairs is exactly
`Linked`. -/
theorem linkedOver_empty_iff_linked (pairs : List (List Char × List Char))
    (a b : List Char) :
    LinkedOver
      (fun a b => root UnionFind.emptyUF a = root UnionFind.emptyUF b)
      pairs a b ↔ Linked pairs a b := by
  constructor
  · intro h
    induction h with
    | base hb =>
      rw [root_emptyUF, root_emptyUF] at hb
      exact hb ▸ Linked.refl _
    | pair hp => exact Linked.base hp
    | symm _ ih => exact Linked.symm ih
    | trans _ _ ih1 ih2 => exact Linked.trans ih1 ih2
  · intro h
    induction h with
    | refl z => exact LinkedOver.base rfl
    | base hp => exact LinkedOver.pair hp
    | symm _ ih => exact LinkedOver.symm ih
    | trans _ _ ih1 ih2 => exact LinkedOver.trans ih1 ih2

/-- The state reached by a recorded operation sequence: invariant,
keys are exactly the arguments, and root-equality is connectivity. -/
theorem execOps_spec (ops : List UFOp) :
    Inv (execOps ops) ∧
    (∀ z, z ∈ (execOps ops).parent.map Prod.fst ↔ z ∈ argsOf ops) ∧
    (∀ a b, root (execOps ops) a = root (execOps ops) b ↔
      Linked (unionPairs ops) a b) := by
  have hempty : Inv UnionFind.emptyUF := by
    refine ⟨by simp [UnionFind.emptyUF], rfl, ?_, ?_⟩
    · intro x p h
      simp [UnionFind.emptyUF, alookup] at h
    · intro x p h
      simp [UnionFind.emptyUF, alookup] at h
  have hexec : execOps ops = execFrom UnionFind.emptyUF ops := rfl
  obtain ⟨hI, hK, hR⟩ := execFrom_spec ops UnionFind.emptyUF hempty
  rw [hexec]
  refine ⟨hI, ?_, ?_⟩
  · intro z
    rw [hK z]
    constructor
    · rintro (hz | hz)
      · rw [mem_keys_iff_alookup] at hz
        simp [UnionFind.emptyUF, alookup] at hz
      · exact hz
    · exact Or.inr
  · intro a b
    rw [hR a b, linkedOver_empty_iff_linked]

/-! ## UnionFind: grouping into clusters -/

/-- `addToCluster` appends exactly the new element to the flattened
members. -/
theorem addToCluster_flatten (cs : List (List Char × List (List Char)))
    (r x : List Char) :
    ((addToCluster cs r x).map Prod.snd).flatten.Perm
      ((cs.map Prod.snd).flatten ++ [x]) := by
  induction cs with
  | nil => simp [addToCluster]
  | cons c cs ih =>
    by_cases h : c.1 = r
    · simp only [addToCluster, if_pos h, List.map_cons, List.flatten_cons]
      rw [List.append_assoc, List.append_assoc]
      exact List.Perm.append_left c.2 List.perm_append_comm
    · simp only [addToCluster, if_neg h, List.map_cons, List.flatten_cons]
      rw [List.append_assoc]
      exact List.Perm.append_left c.2 ih

/-- `addToCluster` keeps every existing member. -/
theorem addToCluster_mem_preserved
    (cs : List (List Char × List (List Char))) (r x m : List Char)
    (hm : ∃ c ∈ cs, m ∈ c.2) :
    ∃ c ∈ addToCluster cs r x, m ∈ c.2 := by
  induction cs with
  | nil => simp at hm
  | cons c cs ih =>
    obtain ⟨c0, hc0, hmc0⟩ := hm
    by_cases h : c.1 = r
    · simp only [addToCluster, if_pos h]
      rcases List.mem_cons.mp hc0 with he | he
      · refine ⟨(c.1, c.2 ++ [x]), List.mem_cons_self _ _, ?_⟩
        subst he
        exact List.mem_append_left _ hmc0
      · exact ⟨c0, List.mem_cons_of_mem _ he, hmc0⟩
    · simp only [addToCluster, if_neg h]
      rcases List.mem_cons.mp hc0 with he | he
      · subst he
        exact ⟨c0, List.mem_cons_self _ _, hmc0⟩
      · obtain ⟨c1, hc1, hmc1⟩ := ih ⟨c0, he, hmc0⟩
        exact ⟨c1, List.mem_cons_of_mem _ hc1, hmc1⟩

/-- `addToCluster` files the new element under its root. -/
theorem addToCluster_adds (cs : List (List Char × List (List Char)))
    (r x : List Char) :
    ∃ c ∈ addToCluster cs r x, c.1 = r ∧ x ∈ c.2 := by
  induction cs with
  | nil =>
    refine ⟨(r, [x]), ?_, rfl, ?_⟩ <;> simp [addToCluster]
  | cons c cs ih =>
    by_cases h : c.1 = r
    · refine ⟨(c.1, c.2 ++ [x]), ?_, h, ?_⟩
      · simp [addToCluster, h]
      · simp
    · obtain ⟨c1, hc1, hr1, hx1⟩ := ih
      refine ⟨c1, ?_, hr1, hx1⟩
      simp [addToCluster, h, hc1]

/-- A member/label predicate survives `addToCluster` when the new
element satisfies it at the given root. -/
theorem addToCluster_pred (Q : List Char → List Char → Prop)
    (cs : List (List Char × List (List Char))) (r x : List Char)
    (hold : ∀ c ∈ cs, ∀ m ∈ c.2, Q m c.1) (hnew : Q x r) :
    ∀ c ∈ addToCluster cs r x, ∀ m ∈ c.2, Q m c.1 := by
  induction cs with
  | nil =>
    intro c hc m hm
    simp [addToCluster] at hc
    subst hc
    simp at hm
    subst hm
    exact hnew
  | cons c0 cs ih =>
    intro c hc m hm
    by_cases h : c0.1 = r
    · simp only [addToCluster, if_pos h] at hc
      rcases List.mem_cons.mp hc with he | he
      · subst he
        rcases List.mem_append.mp hm with hm0 | hm0
        · exact hold c0 (List.mem_cons_self _ _) m hm0
        · rw [List.mem_singleton] at hm0
          subst hm0
          show Q m c0.1
          rw [h]
          exact hnew
      · exact hold c (List.mem_cons_of_mem _ he) m hm
    · simp only [addToCluster, if_neg h] at hc
      rcases List.mem_cons.mp hc with he | he
      · subst he
        exact hold c (List.mem_cons_self _ _) m hm
      · exact ih (fun c' hc' => hold c' (List.mem_cons_of_mem _ hc')) c he
          m hm

/-- The cluster labels after `addToCluster`: unchanged, or extended by
a previously absent root. -/
theorem addToCluster_fst (cs : List (List Char × List (List Char)))
    (r x : List Char) :
    (addToCluster cs r x).map Prod.fst = cs.map Prod.fst ∨
    ((addToCluster cs r x).map Prod.fst = cs.map Prod.fst ++ [r] ∧
      r ∉ cs.map Prod.fst) := by
  induction cs with
  | nil =>
    right
    constructor
    · simp [addToCluster]
    · simp
  | cons c cs ih =>
    by_cases h : c.1 = r
    · left
      simp [addToCluster, h]
    · rcases ih with h1 | ⟨h1, h2⟩
      · left
        simp [addToCluster, h, h1]
      · right
        constructor
        · simp [addToCluster, h, h1]
        · intro hmem
          have hmem2 : r ∈ c.1 :: cs.map Prod.fst := by
            simpa only [List.map_cons] using hmem
          rcases List.mem_cons.mp hmem2 with he | he
          · exact h he.symm
          · exact h2 he

/-- The grouping loop is its recursive form. -/
theorem clustersFold_eq_foldl (rem : List (List Char)) :
    ∀ (u : UnionFind) (acc : List (List Char × List (List Char))),
      rem.foldl
        (fun (acc : UnionFind × List (List Char × List (List Char))) x =>
          let f := find acc.1 x
          (f.2, addToCluster acc.2 f.1 x)) (u, acc) =
      clustersFold u acc rem := by
  induction rem with
  | nil =>
    intro u acc
    rfl
  | cons k rem ih =>
    intro u acc
    simp only [List.foldl_cons]
    exact ih _ _

/-- Invariant of the grouping loop: processed elements are exactly the
flattened members (as a permutation), each member sits under its root,
every processed element is filed somewhere, and labels are distinct. -/
theorem clustersFold_spec (s : UnionFind) :
    ∀ (rem : List (List Char)) (u : UnionFind)
      (acc : List (List Char × List (List Char))) (pr : List (List Char)),
      Inv u →
      (∀ z, root u z = root s z) →
      u.parent.map Prod.fst = s.parent.map Prod.fst →
      (∀ k ∈ rem, k ∈ s.parent.map Prod.fst) →
      (acc.map Prod.snd).flatten.Perm pr →
      (∀ c ∈ acc, ∀ m ∈ c.2, root s m = c.1 ∧ m ∈ pr) →
      (∀ m ∈ pr, ∃ c ∈ acc, m ∈ c.2) →
      (acc.map Prod.fst).Nodup →
      (((clustersFold u acc rem).2.map Prod.snd).flatten.Perm
         (pr ++ rem) ∧
       (∀ c ∈ (clustersFold u acc rem).2, ∀ m ∈ c.2,
         root s m = c.1 ∧ m ∈ pr ++ rem) ∧
       (∀ m ∈ pr ++ rem, ∃ c ∈ (clustersFold u acc rem).2, m ∈ c.2) ∧
       ((clustersFold u acc rem).2.map Prod.fst).Nodup) := by
  intro rem
  induction rem with
  | nil =>
    intro u acc pr hInvu hroots hkeys hrem hperm hpred hcov hnodup
    simp only [clustersFold, List.append_nil]
    exact ⟨hperm, hpred, hcov, hnodup⟩
  | cons k rem ih =>
    intro u acc pr hInvu hroots hkeys hrem hperm hpred hcov hnodup
    have hkmem : k ∈ s.parent.map Prod.fst :=
      hrem k (List.mem_cons_self _ _)
    have hkmemu : k ∈ u.parent.map Prod.fst := by
      rw [hkeys]
      exact hkmem
    obtain ⟨hf1, hfInv, hfroots, _, hfkeys⟩ := find_spec u hInvu k
    have hknotnone : ¬ alookup u.parent k = none := fun hn =>
      (alookup_eq_none_iff _ _).mp hn hkmemu
    rw [if_neg hknotnone] at hfkeys
    have hroots' : ∀ z, root (find u k).2 z = root s z :=
      fun z => (hfroots z).trans (hroots z)
    have hkeys' : (find u k).2.parent.map Prod.fst =
        s.parent.map Prod.fst := by
      rw [hfkeys, hkeys]
    have hrk : (find u k).1 = root s k := by
      rw [hf1, hroots k]
    have hperm' :
        ((addToCluster acc (find u k).1 k).map Prod.snd).flatten.Perm
          (pr ++ [k]) :=
      (addToCluster_flatten acc _ k).trans (hperm.append_right [k])
    have hpred' : ∀ c ∈ addToCluster acc (find u k).1 k, ∀ m ∈ c.2,
        root s m = c.1 ∧ m ∈ pr ++ [k] := by
      apply addToCluster_pred (fun m r' => root s m = r' ∧ m ∈ pr ++ [k])
      · intro c hc m hm
        obtain ⟨h1, h2⟩ := hpred c hc m hm
        exact ⟨h1, List.mem_append_left _ h2⟩
      · exact ⟨hrk.symm, List.mem_append_right _ (by simp)⟩
    have hcov' : ∀ m ∈ pr ++ [k],
        ∃ c ∈ addToCluster acc (find u k).1 k, m ∈ c.2 := by
      intro m hm
      rcases List.mem_append.mp hm with hm0 | hm0
      · exact addToCluster_mem_preserved _ _ _ _ (hcov m hm0)
      · rw [List.mem_singleton] at hm0
        rw [hm0]
        obtain ⟨c, hc, _, hx⟩ := addToCluster_adds acc (find u k).1 k
        exact ⟨c, hc, hx⟩
    have hnodup' :
        ((addToCluster acc (find u k).1 k).map Prod.fst).Nodup := by
      rcases addToCluster_fst acc (find u k).1 k with h1 | ⟨h1, h2⟩
      · rw [h1]
        exact hnodup
      · rw [h1]
        refine List.Nodup.append hnodup (List.nodup_singleton _) ?_
        intro a ha hb
        rw [List.mem_singleton] at hb
        subst hb
        exact h2 ha
    have hstep : clustersFold u acc (k :: rem) =
        clustersFold (find u k).2 (addToCluster acc (find u k).1 k)
          rem := rfl
    rw [hstep]
    have hrem' : ∀ j ∈ rem, j ∈ s.parent.map Prod.fst :=
      fun j hj => hrem j (List.mem_cons_of_mem _ hj)
    obtain ⟨hA, hB, hC, hD⟩ := ih (find u k).2
      (addToCluster acc (find u k).1 k) (pr ++ [k]) hfInv hroots' hkeys'
      hrem' hperm' hpred' hcov' hnodup'
    have happ : pr ++ [k] ++ rem = pr ++ k :: rem := by simp
    rw [happ] at hA hB hC
    exact ⟨hA, hB, hC, hD⟩

/-- `get_clusters` groups exactly the stored elements by their root,
each under its root's label, with pairwise-distinct labels. -/
theorem get_clusters_spec (s : UnionFind) (hInv : Inv s) :
    ((get_clusters s).map Prod.snd).flatten.Perm
      (s.parent.map Prod.fst) ∧
    (∀ c ∈ get_clusters s, ∀ m ∈ c.2,
      root s m = c.1 ∧ m ∈ s.parent.map Prod.fst) ∧
    (∀ m ∈ s.parent.map Prod.fst, ∃ c ∈ get_clusters s, m ∈ c.2) ∧
    ((get_clusters s).map Prod.fst).Nodup := by
  have hgc : get_clusters s =
      (clustersFold s [] (s.parent.map Prod.fst)).2 := by
    unfold get_clusters
    rw [clustersFold_eq_foldl]
  obtain ⟨hA, hB, hC, hD⟩ := clustersFold_spec s (s.parent.map Prod.fst)
    s [] [] hInv (fun z => rfl) rfl (fun k hk => hk) (by simp) (by simp)
    (by simp) (by simp)
  rw [hgc]
  refine ⟨by simpa using hA, ?_, ?_, hD⟩
  · intro c hc m hm
    have h0 := hB c hc m hm
    simpa using h0
  · intro m hm
    exact hC m (by simpa using hm)

/-- C10: after executing any finite sequence of `find`/`union`
operations from a fresh `UnionFind`, `get_clusters` returns a
partition of exactly the elements that appeared as arguments: the
stored elements are precisely the arguments, the flattened member
lists are a duplicate-free permutation of them (so each argument
occurs in exactly one member list), and two elements share a
cluster exactly when they are connected by a chain of recorded `union`
pairs; moreover `find` is idempotent on its own result, and `union`
returns `False` exactly when its arguments already shared a root,
equivalently were already connected. -/
theorem unionfind_clusters_partition_linked (ops : List UFOp) :
    (∀ z, z ∈ (execOps ops).parent.map Prod.fst ↔ z ∈ argsOf ops) ∧
    ((get_clusters (execOps ops)).map Prod.snd).flatten.Perm
      ((execOps ops).parent.map Prod.fst) ∧
    ((get_clusters (execOps ops)).map Prod.snd).flatten.Nodup ∧
    (∀ x y, (∃ c ∈ get_clusters (execOps ops), x ∈ c.2 ∧ y ∈ c.2) ↔
      (x ∈ argsOf ops ∧ y ∈ argsOf ops ∧ Linked (unionPairs ops) x y)) ∧
    (∀ x, find (find (execOps ops) x).2 (find (execOps ops) x).1 =
      ((find (execOps ops) x).1, (find (execOps ops) x).2)) ∧
    (∀ x y, ((union (execOps ops) x y).1 = false ↔
      root (execOps ops) x = root (execOps ops) y) ∧
      ((union (execOps ops) x y).1 = false ↔
        Linked (unionPairs ops) x y)) := by
  obtain ⟨hInv, hK, hR⟩ := execOps_spec ops
  obtain ⟨hPerm, hMem, hCov, hNodup⟩ := get_clusters_spec _ hInv
  refine ⟨hK, hPerm, hPerm.nodup_iff.mpr hInv.nodupKeys, ?_, ?_, ?_⟩
  · intro x y
    constructor
    · rintro ⟨c, hc, hx, hy⟩
      obtain ⟨hrx, hmx⟩ := hMem c hc x hx
      obtain ⟨hry, hmy⟩ := hMem c hc y hy
      exact ⟨(hK x).mp hmx, (hK y).mp hmy,
        (hR x y).mp (hrx.trans hry.symm)⟩
    · rintro ⟨hx, hy, hl⟩
      have hmx : x ∈ (execOps ops).parent.map Prod.fst := (hK x).mpr hx
      have hmy : y ∈ (execOps ops).parent.map Prod.fst := (hK y).mpr hy
      obtain ⟨cx, hcx, hxin⟩ := hCov x hmx
      obtain ⟨cy, hcy, hyin⟩ := hCov y hmy
      have h1 := (hMem cx hcx x hxin).1
      have h2 := (hMem cy hcy y hyin).1
      have hrooteq : root (execOps ops) x = root (execOps ops) y :=
        (hR x y).mpr hl
      have hfst : cx.1 = cy.1 := by
        rw [← h1, ← h2, hrooteq]
      have hcc : cx = cy :=
        List.inj_on_of_nodup_map hNodup hcx hcy hfst
      refine ⟨cx, hcx, hxin, ?_⟩
      rw [hcc]
      exact hyin
  · intro x
    exact find_idem _ hInv x
  · intro x y
    have h1 := (union_spec _ hInv x y).2.1
    exact ⟨h1, h1.trans (hR x y)⟩

end BallisticIntel
